import Mathlib

/-!
Verification of the metacells projection / rare-gene-module engine.

A shallow embedding, over exact rationals, of the core numeric routines of
`metacells/tools/project.py` (`project_query_onto_atlas`,
`_project_single_metacell`) and `metacells/tools/rare.py`
(`find_rare_gene_modules` and its stage helpers `_pick_candidates`,
`_identify_genes`, `_identify_cells`, `_compress_results`, `_results`).

Matrices are lists of rows of rationals (rows = cells / metacells,
columns = genes, entries = UMI counts).  Machine floats are modelled as
exact rationals; `log2` is an abstract parameter (fold factors are only
ever compared, never computed from, so every theorem below is stated for
an arbitrary `log2` function).  External collaborators (the non-negative
least-squares solver, the pairwise-distance + linkage library and the
gene-gene similarity computation) are modelled as oracle inputs, exactly
as the code treats them.  Fallible numpy reductions (`np.max` of an empty
array, a failing `assert`) are modelled with `Option`: `none` means the
Python computation raises.
-/

namespace Meta2

/-! ## Generic list helpers (numpy-style vector operations) -/

/-- Sum of a list of rationals (`np.sum`). -/
def listSum (xs : List ℚ) : ℚ := xs.foldr (· + ·) 0

/-- `np.max` over a nonempty slice, `none` when the slice is empty
(numpy raises `ValueError` on an empty reduction). -/
def listMax? (xs : List ℚ) : Option ℚ :=
  match xs with
  | [] => none
  | x :: rest => some (rest.foldl max x)

/-- `np.min` over a list with a fallback for the empty case; callers
only use it on nonempty lists. -/
def listMin (xs : List ℚ) : ℚ :=
  match xs with
  | [] => 0
  | x :: rest => rest.foldl min x

/-- Vectorized store `xs[idxs] = v` (numpy fancy-index assignment with a
broadcast scalar). -/
def setAll (xs : List α) (idxs : List ℕ) (v : α) : List α :=
  idxs.foldl (fun a i => a.set i v) xs

/-- Vectorized store `xs[idxs] = vs` (numpy fancy-index assignment with a
vector of values, paired positionally). -/
def setEach (xs : List α) (upds : List (ℕ × α)) : List α :=
  upds.foldl (fun a p => a.set p.1 p.2) xs

/-! ## Atlas projector (`metacells/tools/project.py`)

`_project_single_metacell` is embedded from the weight solve onward
(lines 208-269); the candidate indices and the solver's weight vector
enter as parameters because both the selection of the `k` nearest rows
and the non-negative least-squares solve are delegated upstream /
external.  `allAtlasCandidates` is the `atlas rows <= k` branch
(lines 204-206). -/

namespace Project

/-- The thresholds threaded into `_project_single_metacell`. -/
structure Params where
  foldNormalization : ℚ
  minSignificantGeneValue : ℚ
  minUsageWeight : ℚ
  minConsistencyWeight : ℚ
  maxConsistencyFold : ℚ
  maxInconsistentGenes : ℕ
  maxProjectionFold : ℚ

/-- `ut.fraction_by(..., by="row")`: divide each row entry by the row sum. -/
def fractionRow (r : List ℚ) : List ℚ := r.map (fun x => x / listSum r)

/-- `np.log2(row + normalization)` with an abstract `log2`. -/
def logRow (log2 : ℚ → ℚ) (eps : ℚ) (r : List ℚ) : List ℚ := r.map (fun x => log2 (x + eps))

/-- Lines 211-212 of `project.py`, exactly as written:
`w[w < floor] = 0` followed by `w[w < floor] /= np.sum(w)`.
The second line re-selects the entries *below* the floor (the ones just
zeroed) and divides only those by the sum. -/
def pruneCandidateWeights (ws : List ℚ) (minUsageWeight : ℚ) : List ℚ :=
  let zeroed := ws.map (fun w => if w < minUsageWeight then 0 else w)
  let s := listSum zeroed
  zeroed.map (fun w => if w < minUsageWeight then w / s else w)

/-- Lines 214-216: the used candidates are those with a strictly positive
(post-prune) weight, kept as (atlas index, weight) pairs. -/
def usedCandidates (candidateIndices : List ℕ) (ws : List ℚ) : List (ℕ × ℚ) :=
  (candidateIndices.zip ws).filter (fun q => decide (0 < q.2))

/-- Lines 204-206: when the atlas has at most `project_candidates_count`
rows, every atlas row is a candidate (`np.arange`). -/
def allAtlasCandidates (atlasRows : ℕ) : List ℕ := List.range atlasRows

/-- `weights @ rows`: the weighted sum of a list of rows. -/
def weightedSumRows (genesCount : ℕ) (pairs : List (ℚ × List ℚ)) : List ℚ :=
  pairs.foldr (fun pr acc => List.zipWith (· + ·) (pr.2.map (pr.1 * ·)) acc)
    (List.replicate genesCount 0)

/-- Line 221: `projected_fractions = atlas_used_weights @ atlas_used_fractions`. -/
def projectedFractionsOf (genesCount : ℕ) (atlasFractions : List (List ℚ))
    (used : List (ℕ × ℚ)) : List ℚ :=
  weightedSumRows genesCount
    (used.map (fun q => (q.2, atlasFractions.getD q.1 (List.replicate genesCount 0))))

/-- Line 224: `projected_total_umis = atlas_used_weights @ atlas_total_umis[atlas_used_indices]`. -/
def projectedTotalUmisOf (atlasTotals : List ℚ) (used : List (ℕ × ℚ)) : ℚ :=
  listSum (used.map (fun q => q.2 * atlasTotals.getD q.1 0))

/-- Line 225: `projected_umis = projected_fractions * projected_total_umis`. -/
def projectedUmisOf (genesCount : ℕ) (atlasFractions : List (List ℚ))
    (atlasTotals : List ℚ) (used : List (ℕ × ℚ)) : List ℚ :=
  (projectedFractionsOf genesCount atlasFractions used).map
    (· * projectedTotalUmisOf atlasTotals used)

/-- Line 226: `total_gene_umis = query_metacell_umis + projected_umis`. -/
def totalGeneUmisOf (queryUmis projectedUmis : List ℚ) : List ℚ :=
  List.zipWith (· + ·) queryUmis projectedUmis

/-- Line 227: the genes whose combined query+projected UMIs clear the
significance floor. -/
def significantGenesOf (genesCount : ℕ) (sigFloor : ℚ) (totalGene : List ℚ) : List ℕ :=
  (List.range genesCount).filter (fun g => decide (sigFloor ≤ totalGene.getD g 0))

/-- Lines 239-261: the candidate-consistency check run when the fidelity
check passed.  Sentinels `±1e9` initialize the per-gene min/max
log-fractions exactly as in the source. -/
def consistencyCharted (log2 : ℚ → ℚ) (p : Params) (atlasUmis : List (List ℚ))
    (atlasFractions : List (List ℚ)) (queryUmis : List ℚ) (used : List (ℕ × ℚ)) : Bool :=
  let genesCount := queryUmis.length
  let big : ℚ := 10 ^ 9
  let consistencyUsed := used.filter (fun q => decide (p.minConsistencyWeight ≤ q.2))
  let start : List ℚ × List ℚ :=
    (List.replicate genesCount big, List.replicate genesCount (-big))
  let finals := consistencyUsed.foldl (fun acc q =>
      let rowUmis := atlasUmis.getD q.1 []
      let rowLog := logRow log2 p.foldNormalization (atlasFractions.getD q.1 [])
      ((List.range genesCount).map (fun g =>
          if p.minSignificantGeneValue ≤ queryUmis.getD g 0 + rowUmis.getD g 0
          then min (acc.1.getD g big) (rowLog.getD g 0) else acc.1.getD g big),
       (List.range genesCount).map (fun g =>
          if p.minSignificantGeneValue ≤ queryUmis.getD g 0 + rowUmis.getD g 0
          then max (acc.2.getD g (-big)) (rowLog.getD g 0) else acc.2.getD g (-big))))
    start
  let minLog := finals.1.map (fun x => if x = big then 0 else x)
  let maxLog := finals.2.map (fun x => if x = -big then 0 else x)
  let folds := List.zipWith (· - ·) maxLog minLog
  decide ((folds.countP (fun f => decide (p.maxConsistencyFold < f))) ≤ p.maxInconsistentGenes)

/-- `_project_single_metacell` from the weight solve onward: prune the
solver weights, build the projection, run the fidelity check (whose
`np.max` raises on an empty significant-gene slice, modelled as `none`)
and then the consistency check.  Returns
`(charted, used indices, used weights, projected total UMIs)`. -/
def projectSingleMetacell (log2 : ℚ → ℚ) (p : Params) (atlasUmis : List (List ℚ))
    (queryUmis : List ℚ) (candidateIndices : List ℕ) (solverWeights : List ℚ) :
    Option (Bool × List ℕ × List ℚ × ℚ) :=
  let genesCount := queryUmis.length
  let atlasTotals := atlasUmis.map listSum
  let atlasFractions := atlasUmis.map fractionRow
  let queryLogFractions := logRow log2 p.foldNormalization (fractionRow queryUmis)
  let used := usedCandidates candidateIndices (pruneCandidateWeights solverWeights p.minUsageWeight)
  let projLogFractions :=
    logRow log2 p.foldNormalization (projectedFractionsOf genesCount atlasFractions used)
  let projTotal := projectedTotalUmisOf atlasTotals used
  let foldFactors := (significantGenesOf genesCount p.minSignificantGeneValue
      (totalGeneUmisOf queryUmis (projectedUmisOf genesCount atlasFractions atlasTotals used))).map
      (fun g => |projLogFractions.getD g 0 - queryLogFractions.getD g 0|)
  match listMax? foldFactors with
  | none => none
  | some maxFold =>
      if maxFold ≤ p.maxProjectionFold then
        some (consistencyCharted log2 p atlasUmis atlasFractions queryUmis used,
              used.map Prod.fst, used.map Prod.snd, projTotal)
      else
        some (false, used.map Prod.fst, used.map Prod.snd, projTotal)

end Project

/-! ## Rare gene module detector (`metacells/tools/rare.py`)

The five sequential stages of `find_rare_gene_modules`.  The gene-gene
similarity matrix and the agglomerative linkage tree are delegated to
external libraries (`compute_var_var_similarity`, `scipy` `pdist` /
`linkage`) and enter as oracle inputs: `sim` gives the similarity between
two candidate-gene positions, `linkage` is the list of merge rows
`(left node id, right node id)` (node ids: leaves `0..candCount-1`,
internal node `candCount + i` for merge row `i`, as in the source).
Module names are modelled by the modules' gene-index lists. -/

namespace Rare

/-- The parameters of `find_rare_gene_modules`. -/
structure Params where
  maxGeneCellFraction : ℚ
  minGeneMaximum : ℚ
  minGenesOfModules : ℕ
  minCellsOfModules : ℕ
  targetMetacellSize : ℚ
  minModulesSizeFactor : ℚ
  minModuleCorrelation : ℚ
  minCellModuleTotal : ℚ

/-- Lines 126-127: the only argument validation performed at the entry of
`find_rare_gene_modules` (note that `min_cell_module_total` is not
checked). -/
def entryAsserts (p : Params) : Prop :=
  0 < p.minCellsOfModules ∧ 0 < p.minGenesOfModules

/-- Column `g` of the cells × genes UMI matrix. -/
def columnOf (umis : List (List ℚ)) (g : ℕ) : List ℚ := umis.map (fun row => row.getD g 0)

/-- `_pick_candidates` (lines 216-228): a gene is a candidate when its
nonzero-cell fraction is at most `max_gene_cell_fraction` and its maximal
UMI value over the cells is at least `min_gene_maximum` (UMI counts are
non-negative, so the column maximum is folded from 0). -/
def pickCandidates (genesCount : ℕ) (umis : List (List ℚ)) (p : Params) : List ℕ :=
  (List.range genesCount).filter (fun g =>
    decide ((((columnOf umis g).countP (fun x => decide (x ≠ 0))) : ℚ) / (umis.length : ℚ)
        ≤ p.maxGeneCellFraction) &&
    decide (p.minGeneMaximum ≤ (columnOf umis g).foldr max 0))

/-- The cluster dictionary of `_identify_genes`: entries
(merge-tree node id, candidate-gene index list), in insertion order
(Python dict semantics). -/
abbrev Clusters := List (ℕ × List ℕ)

/-- `combined_candidate_indices.get(k)`: the value of the first (unique)
entry with key `k`. -/
def lookupCluster : Clusters → ℕ → Option (List ℕ)
  | [], _ => none
  | e :: rest, k => if e.1 = k then some e.2 else lookupCluster rest k

/-- `del combined_candidate_indices[k]`: drop the entry with key `k`. -/
def eraseKey : Clusters → ℕ → Clusters
  | [], _ => []
  | e :: rest, k => if e.1 = k then rest else e :: eraseKey rest k

/-- Sorted insertion, the auxiliary step of `sorted(...)`. -/
def insertSorted (x : ℕ) : List ℕ → List ℕ
  | [] => [x]
  | y :: rest => if x ≤ y then x :: y :: rest else y :: insertSorted x rest

/-- `sorted(left + right)` (line 307), as a structural insertion sort
(extensionally the sorted permutation, like Python's `sorted`). -/
def sortedUnion (l r : List ℕ) : List ℕ := (l ++ r).foldr insertSorted []

/-- Lines 309-313: mean pairwise similarity over a gene-index list with
the diagonal excluded (`np.fill_diagonal(..., None)` + `np.nanmean`:
the sum of the off-diagonal entries of the selected submatrix divided by
their number). -/
def meanLinkSimilarity (sim : ℕ → ℕ → ℚ) (u : List ℕ) : ℚ :=
  listSum (u.map (fun i => listSum (u.map (fun j => if i = j then 0 else sim i j)))) /
    ((u.length * u.length - u.length : ℕ) : ℚ)

/-- One iteration of the `_identify_genes` loop (lines 293-319): skip if
either side is missing or empty, skip if the mean similarity of the union
is below `min_module_correlation`, otherwise replace both sides by the
combined cluster keyed at the merge node. -/
def identifyGenesStep (sim : ℕ → ℕ → ℚ) (minCorr : ℚ) (st : Clusters)
    (node leftIdx rightIdx : ℕ) : Clusters :=
  match lookupCluster st leftIdx, lookupCluster st rightIdx with
  | some l, some r =>
    if l = [] ∨ r = [] then st
    else
      let u := sortedUnion l r
      if meanLinkSimilarity sim u < minCorr then st
      else (eraseKey (eraseKey st leftIdx) rightIdx) ++ [(node, u)]
  | _, _ => st

/-- The `_identify_genes` fold over the linkage rows; `node` is the id of
the next merge node (`link_index + candidate_genes_count`). -/
def identifyGenesGo (sim : ℕ → ℕ → ℚ) (minCorr : ℚ) :
    ℕ → Clusters → List (ℕ × ℕ) → Clusters
  | _, st, [] => st
  | node, st, lr :: rest =>
      identifyGenesGo sim minCorr (node + 1)
        (identifyGenesStep sim minCorr st node lr.1 lr.2) rest

/-- `_identify_genes` (lines 279-321): start from singleton clusters keyed
by leaf index, fold over the linkage rows, return the dict values in
insertion order. -/
def identifyGenes (candCount : ℕ) (sim : ℕ → ℕ → ℚ) (minCorr : ℚ)
    (linkage : List (ℕ × ℕ)) : List (List ℕ) :=
  (identifyGenesGo sim minCorr candCount
      ((List.range candCount).map (fun i => (i, [i]))) linkage).map Prod.snd

/-- Whether the merge row `(leftIdx, rightIdx)` is accepted against the
cluster dictionary `st` (both sides present and nonempty and the mean
similarity of the union not below `min_module_correlation`). -/
def mergeAccepted (sim : ℕ → ℕ → ℚ) (minCorr : ℚ) (st : Clusters)
    (leftIdx rightIdx : ℕ) : Bool :=
  match lookupCluster st leftIdx, lookupCluster st rightIdx with
  | some l, some r =>
      decide (l ≠ []) && decide (r ≠ []) &&
        decide (¬ meanLinkSimilarity sim (sortedUnion l r) < minCorr)
  | _, _ => false

/-- Whether key `k` is consumed by an accepted merge somewhere along the
traversal of the remaining linkage rows starting at node id `node` and
dictionary `st`. -/
def consumedIn (sim : ℕ → ℕ → ℚ) (minCorr : ℚ) :
    ℕ → Clusters → ℕ → List (ℕ × ℕ) → Bool
  | _, _, _, [] => false
  | node, st, k, lr :: rest =>
      (mergeAccepted sim minCorr st lr.1 lr.2 && (decide (k = lr.1) || decide (k = lr.2))) ||
        consumedIn sim minCorr (node + 1)
          (identifyGenesStep sim minCorr st node lr.1 lr.2) k rest

/-- The running accumulators threaded through `_identify_cells`:
`max_strength_of_cells`, `rare_module_of_cells`, `rare_module_of_genes`
and `gene_indices_of_modules`. -/
structure CellState where
  maxStrength : List ℚ
  moduleOfCells : List ℤ
  moduleOfGenes : List ℤ
  modules : List (List ℕ)

/-- The read-only data `_identify_cells` consumes. -/
structure CellConfig where
  candidateUmis : List (List ℚ)
  totalUmisOfCells : List ℚ
  candidateGenesIndices : List ℕ
  minGenesOfModules : ℕ
  minCellModuleTotal : ℚ

/-- Lines 351-353: each cell's total UMIs inside the module's candidate
genes. -/
def moduleTotalsOf (cfg : CellConfig) (moduleCandidates : List ℕ) : List ℚ :=
  cfg.candidateUmis.map (fun row => listSum (moduleCandidates.map (fun j => row.getD j 0)))

/-- Lines 356-359: the strong cells of a module — those whose module total
is at least `min_cell_module_total`. -/
def strongCellsOf (cfg : CellConfig) (moduleCandidates : List ℕ) : List ℕ :=
  (List.range cfg.candidateUmis.length).filter (fun c =>
    decide (cfg.minCellModuleTotal ≤ (moduleTotalsOf cfg moduleCandidates).getD c 0))

/-- Lines 363-367: the strong cells' module fractions
(`module UMIs / cell total UMIs`, positionally over `strongCellsOf`). -/
def strongFractionsOf (cfg : CellConfig) (moduleCandidates : List ℕ) : List ℚ :=
  List.zipWith (· / ·)
    ((strongCellsOf cfg moduleCandidates).map
      (fun c => (moduleTotalsOf cfg moduleCandidates).getD c 0))
    ((strongCellsOf cfg moduleCandidates).map (fun c => cfg.totalUmisOfCells.getD c 0))

/-- Lines 371-379: the strong cells paired with their module strength and
their currently recorded max strength, filtered by the strict competition
`strength > recorded max`. -/
def strongerTriplesOf (cfg : CellConfig) (st : CellState) (moduleCandidates : List ℕ) :
    List (ℕ × ℚ × ℚ) :=
  ((strongCellsOf cfg moduleCandidates).zip
      ((((strongFractionsOf cfg moduleCandidates).map
          (· / listMin (strongFractionsOf cfg moduleCandidates)))).zip
        ((strongCellsOf cfg moduleCandidates).map
          (fun c => st.maxStrength.getD c 0)))).filter
    (fun t => decide (t.2.2 < t.2.1))

/-- Lines 386-387: `candidate_genes_indices[module_candidate_indices]`. -/
def moduleGenesOf (cfg : CellConfig) (moduleCandidates : List ℕ) : List ℕ :=
  moduleCandidates.map (fun j => cfg.candidateGenesIndices.getD j 0)

/-- One iteration of the `_identify_cells` loop (lines 347-390), embedded
statement by statement.  `none` models the `assert min_strong_fraction > 0`
failing (an `AssertionError` aborting the computation).  Note two aspects
taken exactly from the source: line 383-384 stores the *old* strong-cell
maxima back into `max_strength_of_cells` (`max_strength_of_strong_cells`
was copied at line 374-375, before the comparison), and line 390 assigns
*all* strong cells (`strong_cell_indices`) to the new module, not just the
stronger ones. -/
def identifyCellsStep (cfg : CellConfig) (st : CellState) (moduleCandidates : List ℕ) :
    Option CellState :=
  if moduleCandidates.length < cfg.minGenesOfModules then some st
  else if strongCellsOf cfg moduleCandidates = [] then some st
  else if 0 < listMin (strongFractionsOf cfg moduleCandidates) then
    if strongerTriplesOf cfg st moduleCandidates = [] then some st
    else
      some { maxStrength := setEach st.maxStrength
               ((strongerTriplesOf cfg st moduleCandidates).map (fun t => (t.1, t.2.2))),
             moduleOfCells := setAll st.moduleOfCells (strongCellsOf cfg moduleCandidates)
               (st.modules.length : ℤ),
             moduleOfGenes := setAll st.moduleOfGenes (moduleGenesOf cfg moduleCandidates)
               (st.modules.length : ℤ),
             modules := st.modules ++ [moduleGenesOf cfg moduleCandidates] }
  else none

/-- `_identify_cells`: the sequential fold of `identifyCellsStep` over the
candidate modules, aborting on a failed assertion. -/
def identifyCells (cfg : CellConfig) : List (List ℕ) → CellState → Option CellState
  | [], st => some st
  | m :: rest, st =>
    match identifyCellsStep cfg st m with
    | none => none
    | some st2 => identifyCells cfg rest st2

/-- The accumulators threaded through `_compress_results`:
`rare_module_of_cells`, `rare_module_of_genes` and
`list_of_names_of_genes_of_modules` (modelled by gene-index lists). -/
structure CompressState where
  moduleOfCells : List ℤ
  moduleOfGenes : List ℤ
  names : List (List ℕ)

/-- Line 417-418: `np.where(rare_module_of_cells == raw_module_index)`. -/
def cellsOfModule (moc : List ℤ) (raw : ℕ) : List ℕ :=
  (List.range moc.length).filter (fun c => decide (moc.getD c (-1) = (raw : ℤ)))

/-- One iteration of the `_compress_results` loop (lines 415-438): discard
the module — resetting its cells and genes to `-1` — when its cell count
or its total UMIs falls strictly below the respective floor; otherwise
renumber it densely (skipping the rewrite when the index is unchanged)
and record its gene list. -/
def compressStep (totalUmisOfCells : List ℚ) (minCells : ℕ) (minUmis : ℚ)
    (raw : ℕ) (moduleGenes : List ℕ) (st : CompressState) : CompressState :=
  let cells := cellsOfModule st.moduleOfCells raw
  let total := listSum (cells.map (fun c => totalUmisOfCells.getD c 0))
  if cells.length < minCells ∨ total < minUmis then
    { moduleOfCells := setAll st.moduleOfCells cells (-1),
      moduleOfGenes := setAll st.moduleOfGenes moduleGenes (-1),
      names := st.names }
  else
    let moduleIndex := st.names.length
    if raw = moduleIndex then
      { st with names := st.names ++ [moduleGenes] }
    else
      { moduleOfCells := setAll st.moduleOfCells cells (moduleIndex : ℤ),
        moduleOfGenes := setAll st.moduleOfGenes moduleGenes (moduleIndex : ℤ),
        names := st.names ++ [moduleGenes] }

/-- The `_compress_results` fold in discovery order (`raw` is the index in
`gene_indices_of_modules`). -/
def compressGo (totals : List ℚ) (minCells : ℕ) (minUmis : ℚ) :
    ℕ → List (List ℕ) → CompressState → CompressState
  | _, [], st => st
  | raw, m :: rest, st =>
      compressGo totals minCells minUmis (raw + 1) rest
        (compressStep totals minCells minUmis raw m st)

/-- `_compress_results` (lines 396-438): fold over the discovered modules
with `min_umis_of_modules = target_metacell_size * min_modules_size_factor`. -/
def compressResults (totals : List ℚ) (p : Params) (mods : List (List ℕ))
    (moc mog : List ℤ) : CompressState :=
  compressGo totals p.minCellsOfModules (p.targetMetacellSize * p.minModulesSizeFactor)
    0 mods ⟨moc, mog, []⟩

/-- The read-only data handed to `_identify_cells` by
`find_rare_gene_modules`: the candidate-gene column slice of the UMI
matrix, the per-cell total UMIs and the candidate gene indices. -/
def rareCellConfig (genesCount : ℕ) (umis : List (List ℚ)) (p : Params) : CellConfig :=
  { candidateUmis :=
      umis.map (fun row => (pickCandidates genesCount umis p).map (fun g => row.getD g 0)),
    totalUmisOfCells := umis.map listSum,
    candidateGenesIndices := pickCandidates genesCount umis p,
    minGenesOfModules := p.minGenesOfModules,
    minCellModuleTotal := p.minCellModuleTotal }

/-- Lines 133-134 and 338: the `np.full(-1)` / `np.zeros` accumulators. -/
def initialCellState (genesCount cellsCount : ℕ) : CellState :=
  ⟨List.replicate cellsCount 0, List.replicate cellsCount (-1),
   List.replicate genesCount (-1), []⟩

/-- `np.max` over a vector of module labels, `none` when the vector is
empty (numpy raises `ValueError` on an empty reduction). -/
def listMaxInt? (xs : List ℤ) : Option ℤ :=
  match xs with
  | [] => none
  | x :: rest => some (rest.foldl max x)

/-- `_results` (lines 460-463): first
`assert np.max(rare_module_of_cells) == len(list_of_names...) - 1`, then
the same for the genes.  `np.max` raises on an empty axis and a failing
`assert` raises `AssertionError`; both abort the run (`none`).  On
success the annotations `(rare_module_of_genes, rare_module_of_cells,
module gene lists)` are returned. -/
def resultsChecked (mog moc : List ℤ) (names : List (List ℕ)) :
    Option (List ℤ × List ℤ × List (List ℕ)) :=
  match listMaxInt? moc with
  | none => none
  | some mc =>
    if mc = (names.length : ℤ) - 1 then
      match listMaxInt? mog with
      | none => none
      | some mg =>
        if mg = (names.length : ℤ) - 1 then some (mog, moc, names) else none
    else none

/-- The full `find_rare_gene_modules` pipeline (lines 124-199): candidate
selection, the external similarity/linkage stage (oracle inputs), module
identification, cell assignment, compression, and the `_results` checks.
Returns `(rare_module_of_genes, rare_module_of_cells, module gene
lists)`; `none` models an aborting exception (a failing `assert` or an
empty-axis `np.max`). -/
def findRareGeneModules (genesCount : ℕ) (umis : List (List ℚ)) (p : Params)
    (sim : ℕ → ℕ → ℚ) (linkage : List (ℕ × ℕ)) :
    Option (List ℤ × List ℤ × List (List ℕ)) :=
  if (pickCandidates genesCount umis p).length < p.minGenesOfModules then
    resultsChecked (List.replicate genesCount (-1)) (List.replicate umis.length (-1)) []
  else
    match identifyCells (rareCellConfig genesCount umis p)
        (identifyGenes (pickCandidates genesCount umis p).length sim
          p.minModuleCorrelation linkage)
        (initialCellState genesCount umis.length) with
    | none => none
    | some st =>
      if st.modules = [] then resultsChecked st.moduleOfGenes st.moduleOfCells []
      else
        let c := compressResults (umis.map listSum) p st.modules
                   st.moduleOfCells st.moduleOfGenes
        resultsChecked c.moduleOfGenes c.moduleOfCells c.names

end Rare

/-! ## Invariant predicates used by the development -/

/-- Two index lists have no common element. -/
def DisjointLists (a b : List ℕ) : Prop := ∀ x ∈ a, x ∉ b

/-- The invariant of the `_identify_genes` cluster dictionary: keys below
the next merge-node id and unique; values nonempty, duplicate-free lists
of candidate positions below `candCount`, pairwise disjoint. -/
def ClustersInv (candCount node : ℕ) (st : Rare.Clusters) : Prop :=
  (∀ e ∈ st, e.1 < node) ∧
  (st.map Prod.fst).Nodup ∧
  (∀ e ∈ st, e.2 ≠ [] ∧ e.2.Nodup ∧ ∀ g ∈ e.2, g < candCount) ∧
  List.Pairwise (fun a b => ∀ x ∈ a.2, x ∉ b.2) st

/-- Module gene lists are nonempty, within the gene axis, duplicate-free
and pairwise disjoint. -/
def GoodModules (genesCount : ℕ) (mods : List (List ℕ)) : Prop :=
  (∀ c ∈ mods, c ≠ [] ∧ c.Nodup ∧ ∀ g ∈ c, g < genesCount) ∧
  List.Pairwise DisjointLists mods

/-- The invariant threaded through `_identify_cells`: vector lengths are
fixed; every cell label is `-1` or a discovered module index; every gene
label is `-1` or the index of a discovered module containing the gene;
conversely the genes of each discovered module carry its index; and the
discovered modules' gene lists are well-formed. -/
def IdentifyInv (genesCount cellsCount : ℕ) (st : Rare.CellState) : Prop :=
  st.moduleOfCells.length = cellsCount ∧
  st.moduleOfGenes.length = genesCount ∧
  (∀ i : ℕ, st.moduleOfCells.getD i (-1) = -1 ∨
    ∃ m : ℕ, m < st.modules.length ∧ st.moduleOfCells.getD i (-1) = (m : ℤ)) ∧
  (∀ g : ℕ, st.moduleOfGenes.getD g (-1) = -1 ∨
    ∃ m : ℕ, m < st.modules.length ∧ st.moduleOfGenes.getD g (-1) = (m : ℤ) ∧
      g ∈ st.modules.getD m []) ∧
  (∀ m : ℕ, m < st.modules.length → ∀ g ∈ st.modules.getD m [],
    st.moduleOfGenes.getD g (-1) = (m : ℤ)) ∧
  GoodModules genesCount st.modules

/-- The invariant threaded through `_compress_results` after the first
`r` raw modules have been processed, relative to the entry state
`(preMoc, preMog)` and the raw module list `mods`: recorded names are
nonempty and at most `r` many; every cell label is `-1`, a final
(renumbered) index, or the untouched raw label of an unprocessed module;
likewise for genes; every final index has a cell and a gene carrying it;
and the genes of each unprocessed module still carry its raw label. -/
def CompressInv (cellsCount genesCount : ℕ) (preMoc preMog : List ℤ)
    (mods : List (List ℕ)) (r : ℕ) (cst : Rare.CompressState) : Prop :=
  cst.moduleOfCells.length = cellsCount ∧
  cst.moduleOfGenes.length = genesCount ∧
  cst.names.length ≤ r ∧
  (∀ nm ∈ cst.names, nm ≠ []) ∧
  (∀ i : ℕ, cst.moduleOfCells.getD i (-1) = -1 ∨
    (∃ t : ℕ, t < cst.names.length ∧ cst.moduleOfCells.getD i (-1) = (t : ℤ)) ∨
    (cst.moduleOfCells.getD i (-1) = preMoc.getD i (-1) ∧
      ∃ j : ℕ, r ≤ j ∧ j < mods.length ∧ preMoc.getD i (-1) = (j : ℤ))) ∧
  (∀ g : ℕ, cst.moduleOfGenes.getD g (-1) = -1 ∨
    (∃ t : ℕ, t < cst.names.length ∧ cst.moduleOfGenes.getD g (-1) = (t : ℤ)) ∨
    (cst.moduleOfGenes.getD g (-1) = preMog.getD g (-1) ∧
      ∃ j : ℕ, r ≤ j ∧ j < mods.length ∧ preMog.getD g (-1) = (j : ℤ))) ∧
  (∀ t : ℕ, t < cst.names.length →
    (∃ i : ℕ, i < cellsCount ∧ cst.moduleOfCells.getD i (-1) = (t : ℤ)) ∧
    (∃ g : ℕ, g < genesCount ∧ cst.moduleOfGenes.getD g (-1) = (t : ℤ))) ∧
  (∀ j : ℕ, r ≤ j → j < mods.length → ∀ g ∈ mods.getD j [],
    cst.moduleOfGenes.getD g (-1) = (j : ℤ))

/-! ## Lemmas about the generic helpers -/

theorem length_setAll (xs : List α) (idxs : List ℕ) (v : α) :
    (setAll xs idxs v).length = xs.length := by
  induction idxs generalizing xs with
  | nil => rfl
  | cons i rest ih => simp [setAll, List.foldl_cons] at *; rw [ih]; simp

theorem length_setEach (xs : List α) (upds : List (ℕ × α)) :
    (setEach xs upds).length = xs.length := by
  induction upds generalizing xs with
  | nil => rfl
  | cons u rest ih => simp [setEach, List.foldl_cons] at *; rw [ih]; simp

theorem getD_set_ne (l : List α) (i j : ℕ) (v d : α) (h : i ≠ j) :
    (l.set i v).getD j d = l.getD j d := by
  induction l generalizing i j with
  | nil => rfl
  | cons a rest ih =>
    cases i with
    | zero =>
      cases j with
      | zero => exact absurd rfl h
      | succ j' => rfl
    | succ i' =>
      cases j with
      | zero => rfl
      | succ j' =>
        simp only [List.set, List.getD, List.get?]
        exact ih i' j' (fun hh => h (by rw [hh]))

theorem getD_set_eq (l : List α) (i : ℕ) (v d : α) (h : i < l.length) :
    (l.set i v).getD i d = v := by
  induction l generalizing i with
  | nil => simp at h
  | cons a rest ih =>
    cases i with
    | zero => rfl
    | succ i' =>
      simp only [List.set, List.getD, List.get?]
      exact ih i' (by simpa using h)

theorem getD_setAll_not_mem (xs : List α) (idxs : List ℕ) (v : α) (j : ℕ) (d : α)
    (h : j ∉ idxs) : (setAll xs idxs v).getD j d = xs.getD j d := by
  induction idxs generalizing xs with
  | nil => rfl
  | cons i rest ih =>
    simp only [setAll, List.foldl_cons] at *
    rw [ih (xs.set i v) (fun hm => h (List.mem_cons_of_mem _ hm))]
    exact getD_set_ne xs i j v d (fun he => h (he ▸ List.mem_cons_self i rest))

theorem getD_setAll_mem (xs : List α) (idxs : List ℕ) (v : α) (j : ℕ) (d : α)
    (hj : j ∈ idxs) (hlen : j < xs.length) :
    (setAll xs idxs v).getD j d = v := by
  induction idxs generalizing xs with
  | nil => simp at hj
  | cons i rest ih =>
    simp only [setAll, List.foldl_cons] at *
    by_cases hm : j ∈ rest
    · exact ih (xs.set i v) hm (by simpa using hlen)
    · have hij : j = i := by
        rcases List.mem_cons.1 hj with h1 | h2
        · exact h1
        · exact absurd h2 hm
      subst hij
      rw [show List.foldl (fun a i => a.set i v) (xs.set j v) rest
            = setAll (xs.set j v) rest v from rfl,
          getD_setAll_not_mem _ _ _ _ _ hm]
      exact getD_set_eq xs j v d hlen

theorem getD_mem (l : List α) (i : ℕ) (d : α) (h : i < l.length) : l.getD i d ∈ l := by
  induction l generalizing i with
  | nil => simp at h
  | cons a rest ih =>
    cases i with
    | zero => exact List.mem_cons_self a rest
    | succ i' => exact List.mem_cons_of_mem a (ih i' (by simpa using h))

theorem mem_exists_getD (l : List α) (x : α) (d : α) (h : x ∈ l) :
    ∃ i, i < l.length ∧ l.getD i d = x := by
  induction l with
  | nil => simp at h
  | cons a rest ih =>
    rcases List.mem_cons.1 h with h1 | h2
    · exact ⟨0, by simp, h1.symm⟩
    · obtain ⟨i, hi, hg⟩ := ih h2
      exact ⟨i + 1, by simpa using hi, hg⟩

theorem getD_append_lt (l l₂ : List α) (i : ℕ) (d : α) (h : i < l.length) :
    (l ++ l₂).getD i d = l.getD i d := by
  induction l generalizing i with
  | nil => simp at h
  | cons a rest ih =>
    cases i with
    | zero => rfl
    | succ i' => exact ih i' (by simpa using h)

theorem getD_append_len (l : List α) (x : α) (d : α) :
    (l ++ [x]).getD l.length d = x := by
  induction l with
  | nil => rfl
  | cons a rest ih => simp [ih]

theorem getD_nodup_inj (l : List ℕ) (h : l.Nodup) (i j : ℕ)
    (hi : i < l.length) (hj : j < l.length) (hne : i ≠ j) :
    l.getD i 0 ≠ l.getD j 0 := by
  induction l generalizing i j with
  | nil => simp at hi
  | cons a rest ih =>
    simp only [List.nodup_cons] at h
    cases i with
    | zero =>
      cases j with
      | zero => exact absurd rfl hne
      | succ j' =>
        show a ≠ rest.getD j' 0
        exact fun he => h.1 (by rw [he]; exact getD_mem rest j' 0 (by simpa using hj))
    | succ i' =>
      cases j with
      | zero =>
        show rest.getD i' 0 ≠ a
        exact fun he => h.1 (by rw [← he]; exact getD_mem rest i' 0 (by simpa using hi))
      | succ j' =>
        exact ih h.2 i' j' (by simpa using hi) (by simpa using hj)
          (fun he => hne (by rw [he]))

theorem foldr_max_le_of_le (l : List ℤ) (i b : ℤ) (hi : i ≤ b)
    (h : ∀ x ∈ l, x ≤ b) : l.foldr max i ≤ b := by
  induction l with
  | nil => exact hi
  | cons a rest ih =>
    simp only [List.foldr_cons]
    exact max_le (h a (List.mem_cons_self a rest))
      (ih (fun x hx => h x (List.mem_cons_of_mem a hx)))

theorem le_foldr_max_init (l : List ℤ) (i : ℤ) : i ≤ l.foldr max i := by
  induction l with
  | nil => exact le_refl i
  | cons a rest ih => exact le_trans ih (le_max_right a (rest.foldr max i))

theorem le_foldr_max_mem (l : List ℤ) (i : ℤ) (x : ℤ) (hx : x ∈ l) :
    x ≤ l.foldr max i := by
  induction l with
  | nil => simp at hx
  | cons a rest ih =>
    rcases List.mem_cons.1 hx with h1 | h2
    · exact h1 ▸ le_max_left a (rest.foldr max i)
    · exact le_trans (ih h2) (le_max_right a (rest.foldr max i))

theorem foldr_max_eq_of_mem (l : List ℤ) (b : ℤ) (hb : -1 ≤ b)
    (hub : ∀ x ∈ l, x ≤ b) (hmem : b ∈ l) : l.foldr max (-1) = b :=
  le_antisymm (foldr_max_le_of_le l (-1) b hb hub) (le_foldr_max_mem l (-1) b hmem)

theorem foldr_max_eq_neg_one (l : List ℤ) (hub : ∀ x ∈ l, x ≤ -1) :
    l.foldr max (-1) = -1 :=
  le_antisymm (foldr_max_le_of_le l (-1) (-1) (le_refl _) hub) (le_foldr_max_init l (-1))

theorem mem_insertSorted (x y : ℕ) (l : List ℕ) :
    y ∈ Rare.insertSorted x l ↔ y = x ∨ y ∈ l := by
  induction l with
  | nil => simp [Rare.insertSorted]
  | cons a rest ih =>
    by_cases hxa : x ≤ a
    · simp [Rare.insertSorted, hxa]
    · simp only [Rare.insertSorted, if_neg hxa, List.mem_cons, ih]
      tauto

theorem nodup_insertSorted (x : ℕ) (l : List ℕ) (hx : x ∉ l) (hl : l.Nodup) :
    (Rare.insertSorted x l).Nodup := by
  induction l with
  | nil => simp [Rare.insertSorted]
  | cons a rest ih =>
    simp only [List.nodup_cons] at hl
    simp only [List.mem_cons] at hx
    push_neg at hx
    by_cases hxa : x ≤ a
    · simp only [Rare.insertSorted, if_pos hxa, List.nodup_cons, List.mem_cons]
      push_neg
      exact ⟨⟨fun he => hx.1 he, hx.2⟩, hl.1, hl.2⟩
    · simp only [Rare.insertSorted, if_neg hxa, List.nodup_cons, mem_insertSorted]
      push_neg
      exact ⟨⟨fun he => hx.1 he.symm, hl.1⟩, ih hx.2 hl.2⟩

theorem mem_sortedUnion (l r : List ℕ) (x : ℕ) :
    x ∈ Rare.sortedUnion l r ↔ x ∈ l ∨ x ∈ r := by
  unfold Rare.sortedUnion
  induction l with
  | nil =>
    simp only [List.nil_append, List.not_mem_nil, false_or]
    induction r with
    | nil => simp
    | cons a rest ih => simp [List.foldr_cons, mem_insertSorted, ih]
  | cons a rest ih =>
    simp only [List.cons_append, List.foldr_cons, mem_insertSorted, ih, List.mem_cons]
    tauto

theorem sortedUnion_ne_nil (l r : List ℕ) (hl : l ≠ []) : Rare.sortedUnion l r ≠ [] := by
  intro h
  cases l with
  | nil => exact hl rfl
  | cons a rest =>
    have : a ∈ Rare.sortedUnion (a :: rest) r :=
      (mem_sortedUnion _ _ a).2 (Or.inl (List.mem_cons_self a rest))
    rw [h] at this
    simp at this

theorem nodup_sortedUnion (l r : List ℕ) (hl : l.Nodup) (hr : r.Nodup)
    (hdisj : ∀ x ∈ l, x ∉ r) : (Rare.sortedUnion l r).Nodup := by
  unfold Rare.sortedUnion
  induction l with
  | nil =>
    simp only [List.nil_append]
    clear hl hdisj
    induction r with
    | nil => simp
    | cons a rest ih =>
      simp only [List.nodup_cons] at hr
      simp only [List.foldr_cons]
      apply nodup_insertSorted
      · intro hmem
        have : a ∈ rest := by
          have h2 := hmem
          rw [show List.foldr Rare.insertSorted [] rest
                = Rare.sortedUnion [] rest from rfl] at h2
          exact ((mem_sortedUnion [] rest a).1 h2).resolve_left (by simp)
        exact hr.1 this
      · exact ih hr.2
  | cons a rest ih =>
    simp only [List.nodup_cons] at hl
    simp only [List.cons_append, List.foldr_cons]
    apply nodup_insertSorted
    · intro hmem
      rw [show List.foldr Rare.insertSorted [] (rest ++ r)
            = Rare.sortedUnion rest r from rfl] at hmem
      rcases (mem_sortedUnion rest r a).1 hmem with h1 | h2
      · exact hl.1 h1
      · exact hdisj a (List.mem_cons_self a rest) h2
    · exact ih hl.2 (fun x hx => hdisj x (List.mem_cons_of_mem a hx))

/-! ## Lemmas about the cluster dictionary -/

theorem lookupCluster_eq_none (st : Rare.Clusters) (k : ℕ)
    (h : k ∉ st.map Prod.fst) : Rare.lookupCluster st k = none := by
  induction st with
  | nil => rfl
  | cons e rest ih =>
    simp only [List.map_cons, List.mem_cons] at h
    push_neg at h
    have hek : ¬ e.1 = k := fun he => h.1 he.symm
    simp only [Rare.lookupCluster, if_neg hek]
    exact ih h.2

theorem lookupCluster_eraseKey_ne (st : Rare.Clusters) (a k : ℕ) (h : k ≠ a) :
    Rare.lookupCluster (Rare.eraseKey st a) k = Rare.lookupCluster st k := by
  induction st with
  | nil => rfl
  | cons e rest ih =>
    by_cases hea : e.1 = a
    · have hek : ¬ e.1 = k := fun hk => h (by rw [← hk, hea])
      simp only [Rare.eraseKey, if_pos hea, Rare.lookupCluster, if_neg hek]
    · simp only [Rare.eraseKey, if_neg hea, Rare.lookupCluster]
      by_cases hek : e.1 = k
      · simp only [if_pos hek]
      · simp only [if_neg hek, ih]

theorem lookupCluster_eraseKey_none (st : Rare.Clusters) (a k : ℕ)
    (h : Rare.lookupCluster st k = none) :
    Rare.lookupCluster (Rare.eraseKey st a) k = none := by
  induction st with
  | nil => rfl
  | cons e rest ih =>
    by_cases hek : e.1 = k
    · simp [Rare.lookupCluster, hek] at h
    · simp only [Rare.lookupCluster, if_neg hek] at h
      by_cases hea : e.1 = a
      · simpa only [Rare.eraseKey, if_pos hea] using h
      · simp only [Rare.eraseKey, if_neg hea, Rare.lookupCluster, if_neg hek]
        exact ih h

theorem eraseKey_sublist (st : Rare.Clusters) (a : ℕ) :
    (Rare.eraseKey st a).Sublist st := by
  induction st with
  | nil => exact List.Sublist.refl []
  | cons e rest ih =>
    by_cases hea : e.1 = a
    · simpa only [Rare.eraseKey, if_pos hea] using List.sublist_cons_self e rest
    · simpa only [Rare.eraseKey, if_neg hea] using ih.cons₂ e

theorem keys_nodup_eraseKey (st : Rare.Clusters) (a : ℕ)
    (h : (st.map Prod.fst).Nodup) :
    ((Rare.eraseKey st a).map Prod.fst).Nodup :=
  ((eraseKey_sublist st a).map Prod.fst).nodup h

theorem lookupCluster_eraseKey_self (st : Rare.Clusters) (a : ℕ)
    (h : (st.map Prod.fst).Nodup) :
    Rare.lookupCluster (Rare.eraseKey st a) a = none := by
  induction st with
  | nil => rfl
  | cons e rest ih =>
    simp only [List.map_cons, List.nodup_cons] at h
    by_cases hea : e.1 = a
    · simp only [Rare.eraseKey, if_pos hea]
      exact lookupCluster_eq_none rest a (hea ▸ h.1)
    · simp only [Rare.eraseKey, if_neg hea, Rare.lookupCluster, if_neg hea]
      exact ih h.2

theorem lookupCluster_append (xs ys : Rare.Clusters) (k : ℕ) :
    Rare.lookupCluster (xs ++ ys) k =
      match Rare.lookupCluster xs k with
      | some c => some c
      | none => Rare.lookupCluster ys k := by
  induction xs with
  | nil => rfl
  | cons e rest ih =>
    by_cases hek : e.1 = k
    · simp only [List.cons_append, Rare.lookupCluster, if_pos hek]
    · simp only [List.cons_append, Rare.lookupCluster, if_neg hek, List.append_eq, ih]

theorem identifyGenesStep_not_accepted (sim : ℕ → ℕ → ℚ) (minCorr : ℚ)
    (st : Rare.Clusters) (node leftIdx rightIdx : ℕ)
    (h : Rare.mergeAccepted sim minCorr st leftIdx rightIdx = false) :
    Rare.identifyGenesStep sim minCorr st node leftIdx rightIdx = st := by
  unfold Rare.identifyGenesStep
  unfold Rare.mergeAccepted at h
  cases hl : Rare.lookupCluster st leftIdx with
  | none => simp [hl]
  | some lc =>
    cases hr : Rare.lookupCluster st rightIdx with
    | none => simp [hl, hr]
    | some rc =>
      rw [hl, hr] at h
      simp only [Bool.and_eq_false_iff, decide_eq_false_iff_not, not_not] at h
      by_cases hemp : lc = [] ∨ rc = []
      · simp [hl, hr, hemp]
      · push_neg at hemp
        rcases h with (h | h) | h
        · exact absurd h hemp.1
        · exact absurd h hemp.2
        · simp only [hl, hr]
          rw [if_neg (by push_neg; exact hemp), if_pos h]

theorem identifyGenesStep_accepted (sim : ℕ → ℕ → ℚ) (minCorr : ℚ)
    (st : Rare.Clusters) (node leftIdx rightIdx : ℕ) (lc rc : List ℕ)
    (hl : Rare.lookupCluster st leftIdx = some lc)
    (hr : Rare.lookupCluster st rightIdx = some rc)
    (ha : Rare.mergeAccepted sim minCorr st leftIdx rightIdx = true) :
    Rare.identifyGenesStep sim minCorr st node leftIdx rightIdx
      = (Rare.eraseKey (Rare.eraseKey st leftIdx) rightIdx)
          ++ [(node, Rare.sortedUnion lc rc)] := by
  unfold Rare.identifyGenesStep
  unfold Rare.mergeAccepted at ha
  rw [hl, hr] at ha ⊢
  simp only [Bool.and_eq_true, decide_eq_true_eq] at ha
  dsimp only
  rw [if_neg (by push_neg; exact ⟨ha.1.1, ha.1.2⟩), if_neg ha.2]

theorem mergeAccepted_true_lookup (sim : ℕ → ℕ → ℚ) (minCorr : ℚ)
    (st : Rare.Clusters) (leftIdx rightIdx : ℕ)
    (ha : Rare.mergeAccepted sim minCorr st leftIdx rightIdx = true) :
    ∃ lc rc, Rare.lookupCluster st leftIdx = some lc ∧
      Rare.lookupCluster st rightIdx = some rc := by
  unfold Rare.mergeAccepted at ha
  cases hl : Rare.lookupCluster st leftIdx with
  | none => rw [hl] at ha; exact absurd ha (by simp)
  | some lc =>
    cases hr : Rare.lookupCluster st rightIdx with
    | none => rw [hl, hr] at ha; exact absurd ha (by simp)
    | some rc => exact ⟨lc, rc, rfl, rfl⟩

/-! ## Invariants of the gene-module identification stage -/

theorem lookupCluster_some_mem (st : Rare.Clusters) (k : ℕ) (c : List ℕ)
    (h : Rare.lookupCluster st k = some c) : (k, c) ∈ st := by
  induction st with
  | nil => exact absurd h (by simp [Rare.lookupCluster])
  | cons e rest ih =>
    by_cases hek : e.1 = k
    · simp only [Rare.lookupCluster, if_pos hek] at h
      have heq : (k, c) = e := by
        obtain ⟨e1, e2⟩ := e
        simp only at hek
        simp only [Option.some.injEq] at h
        rw [hek, h]
      exact heq ▸ List.mem_cons_self e rest
    · simp only [Rare.lookupCluster, if_neg hek] at h
      exact List.mem_cons_of_mem e (ih h)

theorem mem_eraseKey (st : Rare.Clusters) (a : ℕ)
    (hnd : (st.map Prod.fst).Nodup) (e : ℕ × List ℕ)
    (h : e ∈ Rare.eraseKey st a) : e ∈ st ∧ e.1 ≠ a := by
  induction st with
  | nil => exact absurd h (by simp [Rare.eraseKey])
  | cons f rest ih =>
    simp only [List.map_cons, List.nodup_cons] at hnd
    by_cases hfa : f.1 = a
    · rw [Rare.eraseKey, if_pos hfa] at h
      refine ⟨List.mem_cons_of_mem f h, fun hea => ?_⟩
      exact hnd.1 (hfa ▸ hea ▸ List.mem_map_of_mem Prod.fst h)
    · rw [Rare.eraseKey, if_neg hfa] at h
      rcases List.mem_cons.1 h with h1 | h2
      · exact ⟨h1 ▸ List.mem_cons_self f rest, h1 ▸ hfa⟩
      · obtain ⟨hm, hne⟩ := ih hnd.2 h2
        exact ⟨List.mem_cons_of_mem f hm, hne⟩

theorem clustersInv_mono (candCount node node' : ℕ) (st : Rare.Clusters)
    (h : ClustersInv candCount node st) (hle : node ≤ node') :
    ClustersInv candCount node' st :=
  ⟨fun e he => lt_of_lt_of_le (h.1 e he) hle, h.2.1, h.2.2.1, h.2.2.2⟩

theorem valsDisjoint_symm :
    Symmetric (fun a b : ℕ × List ℕ => ∀ x ∈ a.2, x ∉ b.2) :=
  fun _ _ h x hxb hxa => h x hxa hxb

theorem clustersInv_step (candCount node : ℕ) (sim : ℕ → ℕ → ℚ) (minCorr : ℚ)
    (st : Rare.Clusters) (l r : ℕ) (hlr : l ≠ r)
    (hinv : ClustersInv candCount node st) :
    ClustersInv candCount (node + 1) (Rare.identifyGenesStep sim minCorr st node l r) := by
  by_cases ha : Rare.mergeAccepted sim minCorr st l r = true
  · obtain ⟨lc, rc, hl, hr⟩ := mergeAccepted_true_lookup sim minCorr st l r ha
    rw [identifyGenesStep_accepted sim minCorr st node l r lc rc hl hr ha]
    obtain ⟨hkeys, hnd, hvals, hpw⟩ := hinv
    have hmemL : (l, lc) ∈ st := lookupCluster_some_mem st l lc hl
    have hmemR : (r, rc) ∈ st := lookupCluster_some_mem st r rc hr
    have hndE1 : ((Rare.eraseKey st l).map Prod.fst).Nodup := keys_nodup_eraseKey st l hnd
    have hsubE : (Rare.eraseKey (Rare.eraseKey st l) r).Sublist st :=
      (eraseKey_sublist (Rare.eraseKey st l) r).trans (eraseKey_sublist st l)
    have hmemE : ∀ e ∈ Rare.eraseKey (Rare.eraseKey st l) r, e ∈ st ∧ e.1 ≠ l ∧ e.1 ≠ r := by
      intro e he
      obtain ⟨he1, hner⟩ := mem_eraseKey (Rare.eraseKey st l) r hndE1 e he
      obtain ⟨he2, hnel⟩ := mem_eraseKey st l hnd e he1
      exact ⟨he2, hnel, hner⟩
    have hlcg := hvals _ hmemL
    have hrcg := hvals _ hmemR
    have hdisjLR : ∀ x ∈ lc, x ∉ rc := by
      have hne : (l, lc) ≠ (r, rc) := fun h => hlr (congrArg Prod.fst h)
      exact hpw.forall valsDisjoint_symm hmemL hmemR hne
    have hdisjE : ∀ e ∈ Rare.eraseKey (Rare.eraseKey st l) r,
        ∀ x ∈ e.2, x ∉ Rare.sortedUnion lc rc := by
      intro e he x hx hxu
      obtain ⟨hest, hnel, hner⟩ := hmemE e he
      rcases (mem_sortedUnion lc rc x).1 hxu with hxl | hxr
      · exact hpw.forall valsDisjoint_symm hest hmemL
          (fun h => hnel (congrArg Prod.fst h)) x hx hxl
      · exact hpw.forall valsDisjoint_symm hest hmemR
          (fun h => hner (congrArg Prod.fst h)) x hx hxr
    refine ⟨?_, ?_, ?_, ?_⟩
    · intro e he
      rcases List.mem_append.1 he with h1 | h2
      · exact lt_trans (hkeys e ((hmemE e h1).1)) (Nat.lt_succ_self node)
      · rw [List.mem_singleton.1 h2]
        exact Nat.lt_succ_self node
    · rw [List.map_append, List.nodup_append]
      refine ⟨(hsubE.map Prod.fst).nodup hnd, by simp, ?_⟩
      intro x hx
      obtain ⟨e, he, rfl⟩ := List.mem_map.1 hx
      simp only [List.map_cons, List.map_nil, List.mem_singleton]
      exact fun h => absurd (h ▸ hkeys e (hmemE e he).1) (lt_irrefl node)
    · intro e he
      rcases List.mem_append.1 he with h1 | h2
      · exact hvals e (hmemE e h1).1
      · rw [List.mem_singleton.1 h2]
        refine ⟨sortedUnion_ne_nil lc rc hlcg.1, ?_, ?_⟩
        · exact nodup_sortedUnion lc rc hlcg.2.1 hrcg.2.1 hdisjLR
        · intro g hg
          rcases (mem_sortedUnion lc rc g).1 hg with h1 | h1
          · exact hlcg.2.2 g h1
          · exact hrcg.2.2 g h1
    · rw [List.pairwise_append]
      refine ⟨hpw.sublist hsubE, by simp, ?_⟩
      intro a ha b hb
      rw [List.mem_singleton.1 hb]
      exact hdisjE a ha
  · have ha' : Rare.mergeAccepted sim minCorr st l r = false := by
      revert ha; cases Rare.mergeAccepted sim minCorr st l r <;> simp
    rw [identifyGenesStep_not_accepted sim minCorr st node l r ha']
    exact clustersInv_mono candCount node (node + 1) st hinv (Nat.le_succ node)

theorem clustersInv_go (candCount : ℕ) (sim : ℕ → ℕ → ℚ) (minCorr : ℚ) :
    ∀ (linkage : List (ℕ × ℕ)) (node : ℕ) (st : Rare.Clusters),
      (∀ lr ∈ linkage, lr.1 ≠ lr.2) →
      ClustersInv candCount node st →
      ClustersInv candCount (node + linkage.length)
        (Rare.identifyGenesGo sim minCorr node st linkage) := by
  intro linkage
  induction linkage with
  | nil => intro node st _ hinv; simpa using hinv
  | cons lr rest ih =>
    intro node st hlr hinv
    rw [Rare.identifyGenesGo]
    have hstep := clustersInv_step candCount node sim minCorr st lr.1 lr.2
      (hlr lr (List.mem_cons_self lr rest)) hinv
    have hrec := ih (node + 1) (Rare.identifyGenesStep sim minCorr st node lr.1 lr.2)
      (fun e he => hlr e (List.mem_cons_of_mem lr he)) hstep
    have harith : node + (lr :: rest).length = (node + 1) + rest.length := by
      simp only [List.length_cons]; omega
    rw [harith]
    exact hrec

theorem clustersInv_init (candCount : ℕ) :
    ClustersInv candCount candCount ((List.range candCount).map (fun i => (i, [i]))) := by
  refine ⟨?_, ?_, ?_, ?_⟩
  · intro e he
    obtain ⟨i, hi, rfl⟩ := List.mem_map.1 he
    exact List.mem_range.1 hi
  · have hmap : ((List.range candCount).map (fun i => (i, [i]))).map Prod.fst
        = List.range candCount := by
      induction candCount with
      | zero => rfl
      | succ n ihn => rw [List.range_succ]; simp [ihn]
    rw [hmap]
    exact List.nodup_range _
  · intro e he
    obtain ⟨i, hi, rfl⟩ := List.mem_map.1 he
    exact ⟨by simp, by simp, fun g hg => by
      rw [List.mem_singleton.1 hg]; exact List.mem_range.1 hi⟩
  · rw [List.pairwise_map]
    exact (List.pairwise_lt_range candCount).imp (by
      intro i j hij x hx
      rw [List.mem_singleton.1 hx, List.mem_singleton]
      exact Nat.ne_of_lt hij)

theorem identifyGenes_props (candCount : ℕ) (sim : ℕ → ℕ → ℚ) (minCorr : ℚ)
    (linkage : List (ℕ × ℕ)) (hlr : ∀ lr ∈ linkage, lr.1 ≠ lr.2) :
    (∀ c ∈ Rare.identifyGenes candCount sim minCorr linkage,
        c ≠ [] ∧ c.Nodup ∧ ∀ g ∈ c, g < candCount) ∧
    List.Pairwise (fun a b => ∀ x ∈ a, x ∉ b)
      (Rare.identifyGenes candCount sim minCorr linkage) := by
  have h := clustersInv_go candCount sim minCorr linkage candCount
    ((List.range candCount).map (fun i => (i, [i]))) hlr (clustersInv_init candCount)
  unfold Rare.identifyGenes
  constructor
  · intro c hc
    obtain ⟨e, he, rfl⟩ := List.mem_map.1 hc
    exact h.2.2.1 e he
  · rw [List.pairwise_map]
    exact h.2.2.2

/-! ## Invariants of the cell-assignment stage -/

theorem nodup_map_getD (cand : List ℕ) (hc : cand.Nodup) (m : List ℕ)
    (hm : m.Nodup) (hb : ∀ j ∈ m, j < cand.length) :
    (m.map (fun j => cand.getD j 0)).Nodup := by
  refine List.Nodup.map_on ?_ hm
  intro x hx y hy hxy
  by_contra hne
  exact getD_nodup_inj cand hc x y (hb x hx) (hb y hy) hne hxy

theorem disjoint_map_getD (cand : List ℕ) (hc : cand.Nodup) (a b : List ℕ)
    (ha : ∀ j ∈ a, j < cand.length) (hb : ∀ j ∈ b, j < cand.length)
    (hdisj : ∀ x ∈ a, x ∉ b) :
    DisjointLists (a.map (fun j => cand.getD j 0)) (b.map (fun j => cand.getD j 0)) := by
  intro x hx hxb
  obtain ⟨j, hj, rfl⟩ := List.mem_map.1 hx
  obtain ⟨j', hj', heq⟩ := List.mem_map.1 hxb
  by_cases hjj : j = j'
  · exact hdisj j hj (hjj ▸ hj')
  · exact getD_nodup_inj cand hc j' j (hb j' hj') (ha j hj)
      (fun h => hjj h.symm) heq

theorem strongCells_lt (cfg : Rare.CellConfig) (m : List ℕ) (i : ℕ)
    (h : i ∈ Rare.strongCellsOf cfg m) : i < cfg.candidateUmis.length := by
  unfold Rare.strongCellsOf at h
  exact List.mem_range.1 (List.mem_of_mem_filter h)

theorem identifyCellsStep_inv (cfg : Rare.CellConfig) (genesCount cellsCount : ℕ)
    (hming : 0 < cfg.minGenesOfModules)
    (hcu : cfg.candidateUmis.length = cellsCount)
    (st st' : Rare.CellState) (m : List ℕ)
    (hg : (Rare.moduleGenesOf cfg m).Nodup ∧
      ∀ g ∈ Rare.moduleGenesOf cfg m, g < genesCount)
    (hinv : IdentifyInv genesCount cellsCount st)
    (hdisjm : ∀ c ∈ st.modules, DisjointLists c (Rare.moduleGenesOf cfg m))
    (hstep : Rare.identifyCellsStep cfg st m = some st') :
    IdentifyInv genesCount cellsCount st' ∧
    (st'.modules = st.modules ∨
      st'.modules = st.modules ++ [Rare.moduleGenesOf cfg m]) := by
  obtain ⟨hlenc, hleng, hmoc, hmog, hchar, hgood⟩ := hinv
  unfold Rare.identifyCellsStep at hstep
  by_cases h1 : m.length < cfg.minGenesOfModules
  · rw [if_pos h1] at hstep
    exact (Option.some.inj hstep) ▸
      ⟨⟨hlenc, hleng, hmoc, hmog, hchar, hgood⟩, Or.inl rfl⟩
  rw [if_neg h1] at hstep
  by_cases h2 : Rare.strongCellsOf cfg m = []
  · rw [if_pos h2] at hstep
    exact (Option.some.inj hstep) ▸
      ⟨⟨hlenc, hleng, hmoc, hmog, hchar, hgood⟩, Or.inl rfl⟩
  rw [if_neg h2] at hstep
  by_cases h3 : 0 < listMin (Rare.strongFractionsOf cfg m)
  swap
  · rw [if_neg h3] at hstep
    exact absurd hstep (by simp)
  rw [if_pos h3] at hstep
  by_cases h4 : Rare.strongerTriplesOf cfg st m = []
  · rw [if_pos h4] at hstep
    exact (Option.some.inj hstep) ▸
      ⟨⟨hlenc, hleng, hmoc, hmog, hchar, hgood⟩, Or.inl rfl⟩
  rw [if_neg h4] at hstep
  obtain rfl := Option.some.inj hstep
  have hmne : Rare.moduleGenesOf cfg m ≠ [] := by
    unfold Rare.moduleGenesOf
    intro he
    have : m = [] := List.map_eq_nil_iff.1 he
    rw [this] at h1
    exact h1 (by simpa using hming)
  constructor
  · refine ⟨?_, ?_, ?_, ?_, ?_, ?_, ?_⟩
    · exact (length_setAll _ _ _).trans hlenc
    · exact (length_setAll _ _ _).trans hleng
    · intro i
      by_cases hmem : i ∈ Rare.strongCellsOf cfg m
      · right
        refine ⟨st.modules.length, by simp, ?_⟩
        rw [getD_setAll_mem _ _ _ _ _ hmem (by rw [hlenc, ← hcu]; exact strongCells_lt cfg m i hmem)]
      · rw [getD_setAll_not_mem _ _ _ _ _ hmem]
        rcases hmoc i with hI | ⟨mm, hmm, hval⟩
        · exact Or.inl hI
        · exact Or.inr ⟨mm, by simp; omega, hval⟩
    · intro g
      by_cases hmem : g ∈ Rare.moduleGenesOf cfg m
      · right
        refine ⟨st.modules.length, by simp, ?_, ?_⟩
        · rw [getD_setAll_mem _ _ _ _ _ hmem (by rw [hleng]; exact hg.2 g hmem)]
        · rw [getD_append_len]
          exact hmem
      · rw [getD_setAll_not_mem _ _ _ _ _ hmem]
        rcases hmog g with hI | ⟨mm, hmm, hval, hgm⟩
        · exact Or.inl hI
        · refine Or.inr ⟨mm, by simp; omega, hval, ?_⟩
          rw [getD_append_lt _ _ _ _ hmm]
          exact hgm
    · intro m' hm' g hmemg
      by_cases hcase : m' = st.modules.length
      · subst hcase
        rw [getD_append_len] at hmemg
        rw [getD_setAll_mem _ _ _ _ _ hmemg (by rw [hleng]; exact hg.2 g hmemg)]
      · have hm'lt : m' < st.modules.length := by
          simp only [List.length_append, List.length_cons, List.length_nil] at hm'
          omega
        rw [getD_append_lt _ _ _ _ hm'lt] at hmemg
        have hnotin : g ∉ Rare.moduleGenesOf cfg m :=
          hdisjm (st.modules.getD m' []) (getD_mem _ m' [] hm'lt) g hmemg
        rw [getD_setAll_not_mem _ _ _ _ _ hnotin]
        exact hchar m' hm'lt g hmemg
    · intro c hc
      rcases List.mem_append.1 hc with hcold | hcnew
      · exact hgood.1 c hcold
      · rw [List.mem_singleton.1 hcnew]
        exact ⟨hmne, hg.1, hg.2⟩
    · rw [List.pairwise_append]
      refine ⟨hgood.2, by simp, ?_⟩
      intro a ha b hb
      rw [List.mem_singleton.1 hb]
      exact hdisjm a ha
  · exact Or.inr rfl

theorem identifyCells_inv (cfg : Rare.CellConfig) (genesCount cellsCount : ℕ)
    (hming : 0 < cfg.minGenesOfModules)
    (hcu : cfg.candidateUmis.length = cellsCount) :
    ∀ (ms : List (List ℕ)) (st st' : Rare.CellState),
      IdentifyInv genesCount cellsCount st →
      (∀ m ∈ ms, (Rare.moduleGenesOf cfg m).Nodup ∧
        ∀ g ∈ Rare.moduleGenesOf cfg m, g < genesCount) →
      List.Pairwise DisjointLists (st.modules ++ ms.map (Rare.moduleGenesOf cfg)) →
      Rare.identifyCells cfg ms st = some st' →
      IdentifyInv genesCount cellsCount st' := by
  intro ms
  induction ms with
  | nil =>
    intro st st' hinv _ _ hrun
    rw [Rare.identifyCells] at hrun
    exact (Option.some.inj hrun) ▸ hinv
  | cons m rest ih =>
    intro st st' hinv hms hpw hrun
    rw [Rare.identifyCells] at hrun
    cases hstep : Rare.identifyCellsStep cfg st m with
    | none => rw [hstep] at hrun; exact absurd hrun (by simp)
    | some st2 =>
      rw [hstep] at hrun
      have hmgmem : Rare.moduleGenesOf cfg m ∈ (m :: rest).map (Rare.moduleGenesOf cfg) :=
        List.mem_map_of_mem _ (List.mem_cons_self m rest)
      have hdisjm : ∀ c ∈ st.modules, DisjointLists c (Rare.moduleGenesOf cfg m) :=
        fun c hc => (List.pairwise_append.1 hpw).2.2 c hc _ hmgmem
      obtain ⟨hinv2, hmods⟩ := identifyCellsStep_inv cfg genesCount cellsCount hming hcu
        st st2 m (hms m (List.mem_cons_self m rest)) hinv hdisjm hstep
      refine ih st2 st' hinv2
        (fun mm hmm => hms mm (List.mem_cons_of_mem _ hmm)) ?_ hrun
      rw [List.map_cons] at hpw
      rcases hmods with he | he
      · rw [he]
        exact hpw.sublist (List.Sublist.append_left (List.sublist_cons_self _ _) _)
      · rw [he, List.append_assoc, List.singleton_append]
        exact hpw

/-! ## Invariants of the compression stage -/

theorem getD_eq_default (l : List α) (i : ℕ) (d : α) (h : l.length ≤ i) :
    l.getD i d = d := by
  induction l generalizing i with
  | nil => cases i <;> rfl
  | cons a rest ih =>
    cases i with
    | zero => simp at h
    | succ i' => exact ih i' (by simpa using h)

theorem drop_cons_facts :
    ∀ (mods : List (List ℕ)) (r : ℕ) (m : List ℕ) (rest : List (List ℕ)),
      mods.drop r = m :: rest →
      mods.getD r [] = m ∧ mods.drop (r + 1) = rest ∧ r < mods.length := by
  intro mods
  induction mods with
  | nil =>
    intro r m rest h
    rw [List.drop_nil] at h
    exact absurd h (by simp)
  | cons a tl ih =>
    intro r m rest h
    cases r with
    | zero =>
      rw [List.drop_zero] at h
      obtain ⟨rfl, rfl⟩ := List.cons.inj h
      exact ⟨rfl, by simp, by simp⟩
    | succ r' =>
      have h' : tl.drop r' = m :: rest := by simpa using h
      obtain ⟨h1, h2, h3⟩ := ih r' m rest h'
      exact ⟨h1, by simpa using h2, by simpa using h3⟩

theorem mem_cellsOfModule (moc : List ℤ) (raw : ℕ) (i : ℕ) :
    i ∈ Rare.cellsOfModule moc raw ↔ i < moc.length ∧ moc.getD i (-1) = (raw : ℤ) := by
  unfold Rare.cellsOfModule
  rw [List.mem_filter, List.mem_range]
  simp

theorem compressStep_inv (totals : List ℚ) (minCells : ℕ) (minUmis : ℚ)
    (cellsCount genesCount : ℕ) (preMoc preMog : List ℤ) (mods : List (List ℕ))
    (r : ℕ) (cst : Rare.CompressState)
    (hminc : 0 < minCells)
    (hr : r < mods.length)
    (hpre : ∀ (g j : ℕ), j < mods.length → preMog.getD g (-1) = (j : ℤ) →
      g ∈ mods.getD j [])
    (hmods : ∀ c ∈ mods, c ≠ [] ∧ ∀ g ∈ c, g < genesCount)
    (hinv : CompressInv cellsCount genesCount preMoc preMog mods r cst) :
    CompressInv cellsCount genesCount preMoc preMog mods (r + 1)
      (Rare.compressStep totals minCells minUmis r (mods.getD r []) cst) := by
  obtain ⟨hlc, hlg, hsr, hnames, hcells, hgenes, hwit, hraw⟩ := hinv
  have hmodr := hmods (mods.getD r []) (getD_mem mods r [] hr)
  have hfactA : ∀ i ∈ Rare.cellsOfModule cst.moduleOfCells r,
      i < cellsCount ∧ cst.moduleOfCells.getD i (-1) = (r : ℤ) := by
    intro i hi
    obtain ⟨h1, h2⟩ := (mem_cellsOfModule _ _ _).1 hi
    exact ⟨hlc ▸ h1, h2⟩
  have hfactB : ∀ g ∈ mods.getD r [], cst.moduleOfGenes.getD g (-1) = (r : ℤ) :=
    hraw r (le_refl r) hr
  have hfactF : ∀ i : ℕ, i ∉ Rare.cellsOfModule cst.moduleOfCells r →
      cst.moduleOfCells.getD i (-1) = preMoc.getD i (-1) →
      ∀ j : ℕ, r ≤ j → j < mods.length → preMoc.getD i (-1) = (j : ℤ) →
      r + 1 ≤ j := by
    intro i hic heq j hrj hjM hpj
    rcases Nat.eq_or_lt_of_le hrj with hje | hjl
    · exfalso
      have hval : cst.moduleOfCells.getD i (-1) = (r : ℤ) := by rw [heq, hpj, ← hje]
      have hibound : i < cst.moduleOfCells.length := by
        by_contra hge
        push_neg at hge
        rw [getD_eq_default _ _ _ hge] at hval
        omega
      exact hic ((mem_cellsOfModule _ _ _).2 ⟨hibound, hval⟩)
    · exact hjl
  have hfactE : ∀ g : ℕ, g ∉ mods.getD r [] →
      ∀ j : ℕ, r ≤ j → j < mods.length → preMog.getD g (-1) = (j : ℤ) →
      r + 1 ≤ j := by
    intro g hgm j hrj hjM hpj
    rcases Nat.eq_or_lt_of_le hrj with hje | hjl
    · exact absurd (hpre g j hjM hpj) (hje ▸ hgm)
    · exact hjl
  unfold Rare.compressStep
  by_cases hcond : (Rare.cellsOfModule cst.moduleOfCells r).length < minCells ∨
      listSum ((Rare.cellsOfModule cst.moduleOfCells r).map (fun c => totals.getD c 0))
        < minUmis
  · rw [if_pos hcond]
    refine ⟨(length_setAll _ _ _).trans hlc, (length_setAll _ _ _).trans hlg,
      le_trans hsr (Nat.le_succ r), hnames, ?_, ?_, ?_, ?_⟩
    · intro i
      by_cases hic : i ∈ Rare.cellsOfModule cst.moduleOfCells r
      · exact Or.inl (getD_setAll_mem _ _ _ _ _ hic (hlc ▸ (hfactA i hic).1))
      · rw [getD_setAll_not_mem _ _ _ _ _ hic]
        rcases hcells i with h | h | ⟨heq, j, hrj, hjM, hpj⟩
        · exact Or.inl h
        · exact Or.inr (Or.inl h)
        · exact Or.inr (Or.inr ⟨heq, j, hfactF i hic heq j hrj hjM hpj, hjM, hpj⟩)
    · intro g
      by_cases hgm : g ∈ mods.getD r []
      · exact Or.inl (getD_setAll_mem _ _ _ _ _ hgm (hlg ▸ hmodr.2 g hgm))
      · rw [getD_setAll_not_mem _ _ _ _ _ hgm]
        rcases hgenes g with h | h | ⟨heq, j, hrj, hjM, hpj⟩
        · exact Or.inl h
        · exact Or.inr (Or.inl h)
        · exact Or.inr (Or.inr ⟨heq, j, hfactE g hgm j hrj hjM hpj, hjM, hpj⟩)
    · intro t ht
      have ht' : t < cst.names.length := ht
      obtain ⟨⟨i, hi, hvi⟩, ⟨g, hgc, hvg⟩⟩ := hwit t ht'
      refine ⟨⟨i, hi, ?_⟩, ⟨g, hgc, ?_⟩⟩
      · have hic : i ∉ Rare.cellsOfModule cst.moduleOfCells r := by
          intro hmem
          have := (hfactA i hmem).2
          rw [hvi] at this
          have : t = r := by exact_mod_cast this
          omega
        rw [getD_setAll_not_mem _ _ _ _ _ hic]
        exact hvi
      · have hgm : g ∉ mods.getD r [] := by
          intro hmem
          have := hfactB g hmem
          rw [hvg] at this
          have : t = r := by exact_mod_cast this
          omega
        rw [getD_setAll_not_mem _ _ _ _ _ hgm]
        exact hvg
    · intro j hj hjM g hg
      have hgm : g ∉ mods.getD r [] := by
        intro hmem
        have h1 := hfactB g hmem
        have h2 := hraw j (by omega) hjM g hg
        rw [h1] at h2
        have : j = r := by exact_mod_cast h2.symm
        omega
      rw [getD_setAll_not_mem _ _ _ _ _ hgm]
      exact hraw j (by omega) hjM g hg
  · rw [if_neg hcond]
    push_neg at hcond
    have hcne : Rare.cellsOfModule cst.moduleOfCells r ≠ [] := by
      intro he
      rw [he] at hcond
      simp at hcond
      omega
    obtain ⟨i0, hi0⟩ : ∃ i, i ∈ Rare.cellsOfModule cst.moduleOfCells r := by
      cases hc : Rare.cellsOfModule cst.moduleOfCells r with
      | nil => exact absurd hc hcne
      | cons a tl => exact ⟨a, hc ▸ List.mem_cons_self a tl⟩
    obtain ⟨g0, hg0⟩ : ∃ g, g ∈ mods.getD r [] := by
      cases hm : mods.getD r [] with
      | nil => exact absurd hm hmodr.1
      | cons a tl => exact ⟨a, hm ▸ List.mem_cons_self a tl⟩
    by_cases hrs : r = cst.names.length
    · rw [if_pos hrs]
      refine ⟨hlc, hlg, by simp; omega, ?_, ?_, ?_, ?_, ?_⟩
      · intro nm hnm
        rcases List.mem_append.1 hnm with h | h
        · exact hnames nm h
        · rw [List.mem_singleton.1 h]; exact hmodr.1
      · intro i
        rcases hcells i with h | h | ⟨heq, j, hrj, hjM, hpj⟩
        · exact Or.inl h
        · obtain ⟨t, ht2, hv2⟩ := h
          exact Or.inr (Or.inl ⟨t, by
            simp only [List.length_append, List.length_cons, List.length_nil]
            omega, hv2⟩)
        · rcases Nat.eq_or_lt_of_le hrj with hje | hjl
          · refine Or.inr (Or.inl ⟨r, by
              simp only [List.length_append, List.length_cons, List.length_nil]
              omega, ?_⟩)
            rw [heq, hpj, ← hje]
          · exact Or.inr (Or.inr ⟨heq, j, by omega, hjM, hpj⟩)
      · intro g
        rcases hgenes g with h | h | ⟨heq, j, hrj, hjM, hpj⟩
        · exact Or.inl h
        · obtain ⟨t, ht2, hv2⟩ := h
          exact Or.inr (Or.inl ⟨t, by
            simp only [List.length_append, List.length_cons, List.length_nil]
            omega, hv2⟩)
        · rcases Nat.eq_or_lt_of_le hrj with hje | hjl
          · refine Or.inr (Or.inl ⟨r, by
              simp only [List.length_append, List.length_cons, List.length_nil]
              omega, ?_⟩)
            rw [heq, hpj, ← hje]
          · exact Or.inr (Or.inr ⟨heq, j, by omega, hjM, hpj⟩)
      · intro t ht
        have ht2 : t < cst.names.length + 1 := by
          have ht' : t < (cst.names ++ [mods.getD r []]).length := ht
          simpa using ht'
        by_cases hts : t < cst.names.length
        · exact hwit t hts
        · have hteq : t = cst.names.length := by omega
          refine ⟨⟨i0, (hfactA i0 hi0).1, ?_⟩, ⟨g0, hmodr.2 g0 hg0, ?_⟩⟩
          · rw [(hfactA i0 hi0).2, hteq, ← hrs]
          · rw [hfactB g0 hg0, hteq, ← hrs]
      · intro j hj hjM g hg
        exact hraw j (by omega) hjM g hg
    · rw [if_neg hrs]
      have hslt : cst.names.length < r := by omega
      refine ⟨(length_setAll _ _ _).trans hlc, (length_setAll _ _ _).trans hlg,
        by simp; omega, ?_, ?_, ?_, ?_, ?_⟩
      · intro nm hnm
        rcases List.mem_append.1 hnm with h | h
        · exact hnames nm h
        · rw [List.mem_singleton.1 h]; exact hmodr.1
      · intro i
        by_cases hic : i ∈ Rare.cellsOfModule cst.moduleOfCells r
        · refine Or.inr (Or.inl ⟨cst.names.length, by
            simp only [List.length_append, List.length_cons, List.length_nil]
            omega, ?_⟩)
          exact getD_setAll_mem _ _ _ _ _ hic (hlc ▸ (hfactA i hic).1)
        · rw [getD_setAll_not_mem _ _ _ _ _ hic]
          rcases hcells i with h | h | ⟨heq, j, hrj, hjM, hpj⟩
          · exact Or.inl h
          · obtain ⟨t, ht2, hv2⟩ := h
            exact Or.inr (Or.inl ⟨t, by
              simp only [List.length_append, List.length_cons, List.length_nil]
              omega, hv2⟩)
          · exact Or.inr (Or.inr ⟨heq, j, hfactF i hic heq j hrj hjM hpj, hjM, hpj⟩)
      · intro g
        by_cases hgm : g ∈ mods.getD r []
        · refine Or.inr (Or.inl ⟨cst.names.length, by
            simp only [List.length_append, List.length_cons, List.length_nil]
            omega, ?_⟩)
          exact getD_setAll_mem _ _ _ _ _ hgm (hlg ▸ hmodr.2 g hgm)
        · rw [getD_setAll_not_mem _ _ _ _ _ hgm]
          rcases hgenes g with h | h | ⟨heq, j, hrj, hjM, hpj⟩
          · exact Or.inl h
          · obtain ⟨t, ht2, hv2⟩ := h
            exact Or.inr (Or.inl ⟨t, by
              simp only [List.length_append, List.length_cons, List.length_nil]
              omega, hv2⟩)
          · exact Or.inr (Or.inr ⟨heq, j, hfactE g hgm j hrj hjM hpj, hjM, hpj⟩)
      · intro t ht
        have ht2 : t < cst.names.length + 1 := by
          have ht' : t < (cst.names ++ [mods.getD r []]).length := ht
          simpa using ht'
        by_cases hts : t < cst.names.length
        · obtain ⟨⟨i, hi, hvi⟩, ⟨g, hgc, hvg⟩⟩ := hwit t hts
          refine ⟨⟨i, hi, ?_⟩, ⟨g, hgc, ?_⟩⟩
          · have hic : i ∉ Rare.cellsOfModule cst.moduleOfCells r := by
              intro hmem
              have := (hfactA i hmem).2
              rw [hvi] at this
              have : t = r := by exact_mod_cast this
              omega
            rw [getD_setAll_not_mem _ _ _ _ _ hic]
            exact hvi
          · have hgm : g ∉ mods.getD r [] := by
              intro hmem
              have := hfactB g hmem
              rw [hvg] at this
              have : t = r := by exact_mod_cast this
              omega
            rw [getD_setAll_not_mem _ _ _ _ _ hgm]
            exact hvg
        · have hteq : t = cst.names.length := by omega
          refine ⟨⟨i0, (hfactA i0 hi0).1, ?_⟩, ⟨g0, hmodr.2 g0 hg0, ?_⟩⟩
          · rw [hteq]
            exact getD_setAll_mem _ _ _ _ _ hi0 (hlc ▸ (hfactA i0 hi0).1)
          · rw [hteq]
            exact getD_setAll_mem _ _ _ _ _ hg0 (hlg ▸ hmodr.2 g0 hg0)
      · intro j hj hjM g hg
        have hgm : g ∉ mods.getD r [] := by
          intro hmem
          have h1 := hfactB g hmem
          have h2 := hraw j (by omega) hjM g hg
          rw [h1] at h2
          have : j = r := by exact_mod_cast h2.symm
          omega
        rw [getD_setAll_not_mem _ _ _ _ _ hgm]
        exact hraw j (by omega) hjM g hg

theorem compressGo_inv (totals : List ℚ) (minCells : ℕ) (minUmis : ℚ)
    (cellsCount genesCount : ℕ) (preMoc preMog : List ℤ) (mods : List (List ℕ))
    (hminc : 0 < minCells)
    (hpre : ∀ (g j : ℕ), j < mods.length → preMog.getD g (-1) = (j : ℤ) →
      g ∈ mods.getD j [])
    (hmods : ∀ c ∈ mods, c ≠ [] ∧ ∀ g ∈ c, g < genesCount) :
    ∀ (ms : List (List ℕ)) (r : ℕ) (cst : Rare.CompressState),
      mods.drop r = ms →
      CompressInv cellsCount genesCount preMoc preMog mods r cst →
      CompressInv cellsCount genesCount preMoc preMog mods (r + ms.length)
        (Rare.compressGo totals minCells minUmis r ms cst) := by
  intro ms
  induction ms with
  | nil => intro r cst _ hinv; simpa using hinv
  | cons m rest ih =>
    intro r cst hdrop hinv
    obtain ⟨hgd, hdrop2, hrlt⟩ := drop_cons_facts mods r m rest hdrop
    rw [Rare.compressGo]
    have hstep := compressStep_inv totals minCells minUmis cellsCount genesCount
      preMoc preMog mods r cst hminc hrlt hpre hmods hinv
    rw [hgd] at hstep
    have hrec := ih (r + 1) _ hdrop2 hstep
    have harith : r + (m :: rest).length = (r + 1) + rest.length := by
      simp only [List.length_cons]; omega
    rw [harith]
    exact hrec

theorem getD_replicate_self (n : ℕ) (d : α) (i : ℕ) :
    (List.replicate n d).getD i d = d := by
  induction n generalizing i with
  | zero => cases i <;> rfl
  | succ n ih =>
    cases i with
    | zero => rfl
    | succ i' => exact ih i'

theorem foldl_max_neg_one_replicate (m : ℕ) :
    (List.replicate m (-1 : ℤ)).foldl max (-1) = -1 := by
  induction m with
  | zero => rfl
  | succ n ih =>
    rw [List.replicate_succ, List.foldl_cons, max_self]
    exact ih

theorem resultsChecked_replicate (g c : ℕ) (hg : 0 < g) (hc : 0 < c) :
    Rare.resultsChecked (List.replicate g (-1)) (List.replicate c (-1)) []
      = some (List.replicate g (-1), List.replicate c (-1), []) := by
  obtain ⟨g', rfl⟩ := Nat.exists_eq_succ_of_ne_zero (Nat.pos_iff_ne_zero.1 hg)
  obtain ⟨c', rfl⟩ := Nat.exists_eq_succ_of_ne_zero (Nat.pos_iff_ne_zero.1 hc)
  unfold Rare.resultsChecked Rare.listMaxInt?
  rw [List.replicate_succ, List.replicate_succ]
  simp [foldl_max_neg_one_replicate]

theorem resultsChecked_some (mog moc : List ℤ) (names : List (List ℕ))
    (out : List ℤ × List ℤ × List (List ℕ))
    (h : Rare.resultsChecked mog moc names = some out) :
    out = (mog, moc, names) := by
  unfold Rare.resultsChecked at h
  cases hmc : Rare.listMaxInt? moc with
  | none => rw [hmc] at h; exact absurd h (by simp)
  | some mc =>
    rw [hmc] at h
    dsimp only at h
    by_cases h1 : mc = (names.length : ℤ) - 1
    · rw [if_pos h1] at h
      cases hmg : Rare.listMaxInt? mog with
      | none => rw [hmg] at h; exact absurd h (by simp)
      | some mg =>
        rw [hmg] at h
        dsimp only at h
        by_cases h2 : mg = (names.length : ℤ) - 1
        · rw [if_pos h2] at h
          exact (Option.some.inj h).symm
        · rw [if_neg h2] at h
          exact absurd h (by simp)
    · rw [if_neg h1] at h
      exact absurd h (by simp)

theorem pickCandidates_nodup (genesCount : ℕ) (umis : List (List ℚ)) (p : Rare.Params) :
    (Rare.pickCandidates genesCount umis p).Nodup :=
  (List.nodup_range genesCount).filter _

theorem pickCandidates_lt (genesCount : ℕ) (umis : List (List ℚ)) (p : Rare.Params) :
    ∀ g ∈ Rare.pickCandidates genesCount umis p, g < genesCount :=
  fun _ hg => List.mem_range.1 (List.mem_of_mem_filter hg)

theorem vector_conclusions (v : List ℤ) (K : ℕ)
    (hbound : ∀ i : ℕ, v.getD i (-1) = -1 ∨
      ∃ t : ℕ, t < K ∧ v.getD i (-1) = (t : ℤ))
    (hwit : ∀ t : ℕ, t < K → ∃ i : ℕ, i < v.length ∧ v.getD i (-1) = (t : ℤ)) :
    (∀ x ∈ v, x = -1 ∨ (0 ≤ x ∧ x < (K : ℤ))) ∧
    (∀ t : ℕ, t < K → (t : ℤ) ∈ v) ∧
    v.foldr max (-1) = (K : ℤ) - 1 := by
  have hmem : ∀ x ∈ v, x = -1 ∨ (0 ≤ x ∧ x < (K : ℤ)) := by
    intro x hx
    obtain ⟨i, hi, hgi⟩ := mem_exists_getD v x (-1) hx
    rcases hbound i with h | ⟨t, ht, hv⟩
    · left; rw [← hgi, h]
    · right
      rw [← hgi, hv]
      exact ⟨Int.natCast_nonneg t, by exact_mod_cast ht⟩
  refine ⟨hmem, ?_, ?_⟩
  · intro t ht
    obtain ⟨i, hi, hgi⟩ := hwit t ht
    exact hgi ▸ getD_mem v i (-1) hi
  · by_cases hK : K = 0
    · subst hK
      rw [foldr_max_eq_neg_one v ?_]
      · simp
      · intro x hx
        rcases hmem x hx with h | ⟨h0, hlt⟩ <;> omega
    · apply foldr_max_eq_of_mem
      · omega
      · intro x hx
        rcases hmem x hx with h | ⟨h0, hlt⟩ <;> omega
      · have hw := hwit (K - 1) (by omega)
        obtain ⟨i, hi, hgi⟩ := hw
        have hcast : ((K - 1 : ℕ) : ℤ) = (K : ℤ) - 1 := by omega
        rw [← hcast]
        exact hgi ▸ getD_mem v i (-1) hi

/-! ## Claims about the atlas projector -/

/-- C1: for every query row the spec asks that, after the solver returns
non-negative weights summing to 1, the weights below the min-usable-weight
floor be zeroed and the *surviving* weights renormalized to sum to 1.
The code (`project.py` line 212) re-selects the entries *below* the floor —
exactly the ones just zeroed — and divides only those by the sum, so the
surviving weights are never renormalized.  At solver output `[9/10, 1/10]`
with floor `1/5`, the returned used-weight vector is `[9/10]`, which sums to
`9/10 ≠ 1`, contradicting the function's own docstring ("The sum of weights
in each row ... is 1").  This theorem evaluates the code at that failing
input, through `pruneCandidateWeights` and the full single-metacell body. -/
theorem c1_pruned_weights_not_renormalized :
    Project.pruneCandidateWeights [9/10, 1/10] (1/5) = [9/10, 0] ∧
    listSum ((Project.usedCandidates [0, 1]
        (Project.pruneCandidateWeights [9/10, 1/10] (1/5))).map Prod.snd) = 9/10 ∧
    (Project.projectSingleMetacell (fun _ => 0) ⟨1/1000, 1, 1/5, 2, 3, 1, 3⟩
        [[4], [4]] [8] (Project.allAtlasCandidates 2) [9/10, 1/10]).map
        (fun r => listSum r.2.2.1) = some (9/10) ∧
    ((9 : ℚ)/10) ≠ 1 := by norm_num [Project.projectSingleMetacell, Project.consistencyCharted, Project.significantGenesOf, Project.totalGeneUmisOf, Project.projectedUmisOf, Project.projectedFractionsOf, Project.projectedTotalUmisOf, Project.weightedSumRows, Project.usedCandidates, Project.pruneCandidateWeights, Project.allAtlasCandidates, Project.fractionRow, Project.logRow, listSum, listMax?, List.range_succ]

/-- C3: the spec (and the code's own docstring) promise that the dense
projected-UMI row of a query metacell sums to the query row's total UMIs
(mass conservation).  The code scales the projected fractions by
`projected_total_umis`, the weighted sum of the *atlas* candidate totals
(`project.py` lines 224-225 and 160), which is independent of the query
total.  With a single atlas row of 50 total UMIs and a query row of 100
total UMIs, the solver weight 1 and no pruning, the projected-UMI row is
`[50]`, summing to 50 while the query row sums to 100. -/
theorem c3_projected_row_sum_not_query_total :
    Project.projectedUmisOf 1 ([[50]].map Project.fractionRow) ([[(50:ℚ)]].map listSum)
      (Project.usedCandidates (Project.allAtlasCandidates 1)
        (Project.pruneCandidateWeights [1] (1/100))) = [50] ∧
    listSum [(100:ℚ)] = 100 ∧ (50:ℚ) ≠ 100 ∧
    Project.projectSingleMetacell (fun _ => 0) ⟨1/100000, 10, 1/100, 2, 3, 1, 3⟩
      [[50]] [100] (Project.allAtlasCandidates 1) [1]
      = some (true, [0], [1], 50) := by norm_num [Project.projectSingleMetacell, Project.consistencyCharted, Project.significantGenesOf, Project.totalGeneUmisOf, Project.projectedUmisOf, Project.projectedFractionsOf, Project.projectedTotalUmisOf, Project.weightedSumRows, Project.usedCandidates, Project.pruneCandidateWeights, Project.allAtlasCandidates, Project.fractionRow, Project.logRow, listSum, listMax?, List.range_succ]

/-- C5 counterexample: the claim says that on a degenerate row (all
candidate weights below the usage floor, or no gene clearing the
significance floor) the computation short-circuits, marks the row
uncharted, and never fails.  At query row `[1]`, one atlas row `[2]`,
solver weight `[1]`, usage floor `2` and significance floor `10`, every
weight is pruned (so the renormalization divides by the zero sum of the
surviving weights) and no gene is significant, and the fidelity check's
`np.max` then runs over an empty slice: the computation raises
(modelled `none`) instead of returning an uncharted row. -/
theorem c5_degenerate_state_fatal_counterexample :
    Project.projectSingleMetacell (fun _ => 0) ⟨1/100000, 10, 2, 2, 3, 1, 3⟩
      [[2]] [1] (Project.allAtlasCandidates 1) [1] = none := by norm_num [Project.projectSingleMetacell, Project.consistencyCharted, Project.significantGenesOf, Project.totalGeneUmisOf, Project.projectedUmisOf, Project.projectedFractionsOf, Project.projectedTotalUmisOf, Project.weightedSumRows, Project.usedCandidates, Project.pruneCandidateWeights, Project.allAtlasCandidates, Project.fractionRow, Project.logRow, listSum, listMax?, List.range_succ]

/-- C5 (amended): whenever no gene clears the significance floor for the
fidelity check — in particular whenever every candidate weight falls below
the usage floor and every query UMI is below the floor — the per-row
computation of `_project_single_metacell` raises a fatal error (the
`np.max` reduction over the empty significant-gene slice, modelled as
`none`) instead of marking the row not charted. -/
theorem c5_no_significant_genes_aborts (log2 : ℚ → ℚ) (p : Project.Params)
    (atlasUmis : List (List ℚ)) (queryUmis : List ℚ)
    (candidateIndices : List ℕ) (solverWeights : List ℚ)
    (h : Project.significantGenesOf queryUmis.length p.minSignificantGeneValue
        (Project.totalGeneUmisOf queryUmis
          (Project.projectedUmisOf queryUmis.length (atlasUmis.map Project.fractionRow)
            (atlasUmis.map listSum)
            (Project.usedCandidates candidateIndices
              (Project.pruneCandidateWeights solverWeights p.minUsageWeight)))) = []) :
    Project.projectSingleMetacell log2 p atlasUmis queryUmis candidateIndices solverWeights
      = none := by
  simp only [Project.projectSingleMetacell, h]
  rfl

/-! ## Claims about the rare module detector -/

/-- C2: the spec says a cell is assigned to a module only when the
module's strength strictly exceeds the cell's recorded maximum strength
(ties keeping the earlier module), and that assigned cells' recorded
maxima are updated to the new strengths.  In the code, line 383-384 of
`rare.py` writes the *old* copied maxima back (`max_strength_of_cells`
never changes from its initial zeros), and line 390 assigns *all* strong
cells — not the stronger ones — to the module.  Concretely: cell 0 has
strength 10 in module 0 and strength 1 in module 1, cell 1 has strength 1
in both; the claim demands both cells stay with module 0, but the run
ends with both cells assigned to module 1 and the recorded maxima still
`[0, 0]`. -/
theorem c2_strength_competition_code_bug :
    Rare.identifyCells ⟨[[10, 1], [1, 1]], [20, 20], [0, 1], 1, 1⟩ [[0], [1]]
        ⟨[0, 0], [-1, -1], [-1, -1], []⟩
      = some ⟨[0, 0], [1, 1], [0, 1], [[0], [1]]⟩ := by
  norm_num [Rare.identifyCells, Rare.identifyCellsStep, Rare.strongCellsOf,
    Rare.moduleTotalsOf, Rare.strongFractionsOf, Rare.strongerTriplesOf,
    Rare.moduleGenesOf, setAll, setEach, listSum, listMin, List.range_succ,
    List.cons_ne_nil]

/-- C4 counterexample: a module with enough genes (1 ≥ 1) and a nonempty
strong-cell set (`[0]`) whose strength competition yields zero newly
assigned cells (strength 1 against recorded maximum 5): the claim says it
is still recorded with its gene list, but `_identify_cells` (line 380-381)
skips it — the state is returned unchanged and the module list stays
empty. -/
theorem c4_zero_gain_module_skipped_counterexample :
    Rare.strongCellsOf ⟨[[5]], [10], [0], 1, 1⟩ [0] = [0] ∧
    Rare.strongerTriplesOf ⟨[[5]], [10], [0], 1, 1⟩ ⟨[5], [-1], [-1], []⟩ [0] = [] ∧
    Rare.identifyCellsStep ⟨[[5]], [10], [0], 1, 1⟩ ⟨[5], [-1], [-1], []⟩ [0]
      = some ⟨[5], [-1], [-1], []⟩ := by
  norm_num [Rare.identifyCellsStep, Rare.strongCellsOf, Rare.moduleTotalsOf,
    Rare.strongFractionsOf, Rare.strongerTriplesOf, listSum, listMin, List.range_succ]

/-- C4 (amended): a candidate module with at least `min_genes_of_modules`
genes and at least one strong cell that gains zero newly assigned cells in
the strength competition is *skipped*: the accumulator state (including
the recorded module list) is returned unchanged, so the module is not
recorded in the module output. -/
theorem c4_zero_gain_module_skipped (cfg : Rare.CellConfig) (st : Rare.CellState)
    (m : List ℕ)
    (h1 : ¬ m.length < cfg.minGenesOfModules)
    (h2 : Rare.strongCellsOf cfg m ≠ [])
    (h3 : 0 < listMin (Rare.strongFractionsOf cfg m))
    (h4 : Rare.strongerTriplesOf cfg st m = []) :
    Rare.identifyCellsStep cfg st m = some st := by
  simp only [Rare.identifyCellsStep, if_neg h1, if_neg h2, if_pos h3, if_pos h4]

/-- C4 witness: the amended theorem applied at a concrete module (one
gene, one strong cell of strength 1, recorded maximum 7). -/
theorem c4_zero_gain_module_skipped_witness :
    Rare.identifyCellsStep ⟨[[5]], [10], [0], 1, 1⟩ ⟨[7], [-1], [-1], []⟩ [0]
      = some ⟨[7], [-1], [-1], []⟩ :=
  c4_zero_gain_module_skipped ⟨[[5]], [10], [0], 1, 1⟩ ⟨[7], [-1], [-1], []⟩ [0]
    (by norm_num)
    (by norm_num [Rare.strongCellsOf, Rare.moduleTotalsOf, listSum, List.range_succ])
    (by norm_num [Rare.strongFractionsOf, Rare.strongCellsOf, Rare.moduleTotalsOf,
      listSum, listMin, List.range_succ])
    (by norm_num [Rare.strongerTriplesOf, Rare.strongFractionsOf, Rare.strongCellsOf,
      Rare.moduleTotalsOf, listSum, listMin, List.range_succ])

/-- C6: during compression a candidate module is discarded — its cells and
genes reset to `-1` and its gene list left unrecorded — if and only if its
assigned cell count is strictly below `min_cells_of_modules` or its cells'
total UMIs are strictly below `target_metacell_size *
min_modules_size_factor`; otherwise (in particular exactly at both floors)
its gene list is recorded. -/
theorem c6_compress_discard_iff (totals : List ℚ) (minCells : ℕ) (minUmis : ℚ)
    (raw : ℕ) (moduleGenes : List ℕ) (st : Rare.CompressState) :
    ((Rare.compressStep totals minCells minUmis raw moduleGenes st).names = st.names
      ↔ ((Rare.cellsOfModule st.moduleOfCells raw).length < minCells ∨
          listSum ((Rare.cellsOfModule st.moduleOfCells raw).map
            (fun c => totals.getD c 0)) < minUmis)) ∧
    (((Rare.cellsOfModule st.moduleOfCells raw).length < minCells ∨
        listSum ((Rare.cellsOfModule st.moduleOfCells raw).map
          (fun c => totals.getD c 0)) < minUmis) →
      Rare.compressStep totals minCells minUmis raw moduleGenes st =
        ⟨setAll st.moduleOfCells (Rare.cellsOfModule st.moduleOfCells raw) (-1),
         setAll st.moduleOfGenes moduleGenes (-1), st.names⟩) ∧
    (¬ ((Rare.cellsOfModule st.moduleOfCells raw).length < minCells ∨
        listSum ((Rare.cellsOfModule st.moduleOfCells raw).map
          (fun c => totals.getD c 0)) < minUmis) →
      (Rare.compressStep totals minCells minUmis raw moduleGenes st).names
        = st.names ++ [moduleGenes]) := by
  by_cases h : (Rare.cellsOfModule st.moduleOfCells raw).length < minCells ∨
      listSum ((Rare.cellsOfModule st.moduleOfCells raw).map
        (fun c => totals.getD c 0)) < minUmis
  · have hstep : Rare.compressStep totals minCells minUmis raw moduleGenes st =
        ⟨setAll st.moduleOfCells (Rare.cellsOfModule st.moduleOfCells raw) (-1),
         setAll st.moduleOfGenes moduleGenes (-1), st.names⟩ := by
      simp only [Rare.compressStep]
      rw [if_pos h]
    exact ⟨by rw [hstep]; exact iff_of_true rfl h, fun _ => hstep, fun hc => absurd h hc⟩
  · have hnames : (Rare.compressStep totals minCells minUmis raw moduleGenes st).names
        = st.names ++ [moduleGenes] := by
      simp only [Rare.compressStep]
      rw [if_neg h]
      by_cases hr : raw = st.names.length <;> simp [hr]
    refine ⟨?_, fun hc => absurd hc h, fun _ => hnames⟩
    rw [hnames]
    exact iff_of_false
      (fun hEq => by have := congrArg List.length hEq; simp at this) h

/-- C6 witness: the boundary scenario — exactly `min_cells_of_modules = 2`
assigned cells and total UMIs exactly at the floor `30` — is retained and
its gene list recorded. -/
theorem c6_compress_boundary_retained_witness :
    (Rare.compressStep [15, 15] 2 30 0 [3] ⟨[0, 0], [3], []⟩).names = [] ++ [[3]] :=
  (c6_compress_discard_iff [15, 15] 2 30 0 [3] ⟨[0, 0], [3], []⟩).2.2
    (by norm_num [Rare.cellsOfModule, listSum, List.range_succ])

/-- C7: on every completed run of `find_rare_gene_modules` (with the entry
validation `min_cells_of_modules > 0`, `min_genes_of_modules > 0` and a
well-formed linkage tree — scipy never merges a cluster with itself), the
final outputs satisfy: every gene and every cell carries at most one final
module index (`-1` = unassigned, otherwise an index below the final module
count); surviving modules are renumbered densely with no gaps (every final
index is carried by at least one gene and at least one cell); every final
module has at least one gene; and the maximum module index among the cell
and the gene vectors equals the final module count minus 1 (the assertions
of `_results`, lines 460-463). -/
theorem c7_final_invariants (genesCount : ℕ) (umis : List (List ℚ)) (p : Rare.Params)
    (sim : ℕ → ℕ → ℚ) (linkage : List (ℕ × ℕ)) (mog moc : List ℤ)
    (mods : List (List ℕ))
    (hlink : ∀ lr ∈ linkage, lr.1 ≠ lr.2)
    (hminc : 0 < p.minCellsOfModules) (hming : 0 < p.minGenesOfModules)
    (hrun : Rare.findRareGeneModules genesCount umis p sim linkage
      = some (mog, moc, mods)) :
    mog.length = genesCount ∧ moc.length = umis.length ∧
    (∀ x ∈ mog, x = -1 ∨ (0 ≤ x ∧ x < (mods.length : ℤ))) ∧
    (∀ x ∈ moc, x = -1 ∨ (0 ≤ x ∧ x < (mods.length : ℤ))) ∧
    (∀ m : ℕ, m < mods.length → ((m : ℤ) ∈ mog ∧ (m : ℤ) ∈ moc)) ∧
    (∀ md ∈ mods, md ≠ []) ∧
    mog.foldr max (-1) = (mods.length : ℤ) - 1 ∧
    moc.foldr max (-1) = (mods.length : ℤ) - 1 := by
  unfold Rare.findRareGeneModules at hrun
  by_cases hshort : (Rare.pickCandidates genesCount umis p).length < p.minGenesOfModules
  · rw [if_pos hshort] at hrun
    have htuple := resultsChecked_some _ _ _ _ hrun
    simp only [Prod.mk.injEq] at htuple
    obtain ⟨hgEq, hcEq, hmEq⟩ := htuple
    subst hgEq hcEq hmEq
    refine ⟨List.length_replicate _ _, List.length_replicate _ _, ?_, ?_, ?_, ?_, ?_, ?_⟩
    · exact fun x hx => Or.inl (List.eq_of_mem_replicate hx)
    · exact fun x hx => Or.inl (List.eq_of_mem_replicate hx)
    · intro m hm; simp at hm
    · intro md hmd; simp at hmd
    · rw [foldr_max_eq_neg_one _ (fun x hx => le_of_eq (List.eq_of_mem_replicate hx))]
      simp
    · rw [foldr_max_eq_neg_one _ (fun x hx => le_of_eq (List.eq_of_mem_replicate hx))]
      simp
  · rw [if_neg hshort] at hrun
    cases hid : Rare.identifyCells (Rare.rareCellConfig genesCount umis p)
        (Rare.identifyGenes (Rare.pickCandidates genesCount umis p).length sim
          p.minModuleCorrelation linkage)
        (Rare.initialCellState genesCount umis.length) with
    | none => rw [hid] at hrun; exact absurd hrun (by simp)
    | some st =>
      rw [hid] at hrun
      replace hrun : (if st.modules = [] then
          Rare.resultsChecked st.moduleOfGenes st.moduleOfCells []
        else
          Rare.resultsChecked
            (Rare.compressResults (umis.map listSum) p st.modules
              st.moduleOfCells st.moduleOfGenes).moduleOfGenes
            (Rare.compressResults (umis.map listSum) p st.modules
              st.moduleOfCells st.moduleOfGenes).moduleOfCells
            (Rare.compressResults (umis.map listSum) p st.modules
              st.moduleOfCells st.moduleOfGenes).names)
          = some (mog, moc, mods) := hrun
      have hprops := identifyGenes_props (Rare.pickCandidates genesCount umis p).length
        sim p.minModuleCorrelation linkage hlink
      have hcand_nodup := pickCandidates_nodup genesCount umis p
      have hcand_lt := pickCandidates_lt genesCount umis p
      have hcu : (Rare.rareCellConfig genesCount umis p).candidateUmis.length
          = umis.length := by
        simp [Rare.rareCellConfig]
      have hms : ∀ m ∈ Rare.identifyGenes (Rare.pickCandidates genesCount umis p).length
          sim p.minModuleCorrelation linkage,
          (Rare.moduleGenesOf (Rare.rareCellConfig genesCount umis p) m).Nodup ∧
          ∀ g ∈ Rare.moduleGenesOf (Rare.rareCellConfig genesCount umis p) m,
            g < genesCount := by
        intro m hm
        obtain ⟨hne, hnd, hbound⟩ := hprops.1 m hm
        constructor
        · exact nodup_map_getD _ hcand_nodup m hnd hbound
        · intro g hg
          obtain ⟨j, hj, rfl⟩ := List.mem_map.1 hg
          exact hcand_lt _ (getD_mem _ j 0 (hbound j hj))
      have hpw : List.Pairwise DisjointLists
          ((Rare.initialCellState genesCount umis.length).modules ++
            (Rare.identifyGenes (Rare.pickCandidates genesCount umis p).length sim
              p.minModuleCorrelation linkage).map
              (Rare.moduleGenesOf (Rare.rareCellConfig genesCount umis p))) := by
        simp only [Rare.initialCellState, List.nil_append]
        rw [List.pairwise_map]
        refine List.Pairwise.imp_of_mem ?_ hprops.2
        intro a b ha hb hdisj
        exact disjoint_map_getD _ hcand_nodup a b (hprops.1 a ha).2.2
          (hprops.1 b hb).2.2 hdisj
      have hinv0 : IdentifyInv genesCount umis.length
          (Rare.initialCellState genesCount umis.length) := by
        refine ⟨List.length_replicate _ _, List.length_replicate _ _, ?_, ?_, ?_, ?_⟩
        · intro i; exact Or.inl (getD_replicate_self _ _ _)
        · intro g; exact Or.inl (getD_replicate_self _ _ _)
        · intro m hm; simp [Rare.initialCellState] at hm
        · exact ⟨fun c hc => absurd hc (List.not_mem_nil c), List.Pairwise.nil⟩
      have hinv := identifyCells_inv (Rare.rareCellConfig genesCount umis p) genesCount
        umis.length hming hcu _ _ st hinv0 hms hpw hid
      obtain ⟨hlc, hlg, hmoc, hmog, hchar, hgood⟩ := hinv
      by_cases hmodsE : st.modules = []
      · rw [if_pos hmodsE] at hrun
        have htuple := resultsChecked_some _ _ _ _ hrun
        simp only [Prod.mk.injEq] at htuple
        obtain ⟨hgEq, hcEq, hmEq⟩ := htuple
        subst hgEq hcEq hmEq
        rw [hmodsE] at hmoc hmog
        have hbg : ∀ i : ℕ, st.moduleOfGenes.getD i (-1) = -1 ∨
            ∃ t : ℕ, t < 0 ∧ st.moduleOfGenes.getD i (-1) = (t : ℤ) := by
          intro g
          rcases hmog g with h | ⟨m, hm, _⟩
          · exact Or.inl h
          · simp at hm
        have hbc : ∀ i : ℕ, st.moduleOfCells.getD i (-1) = -1 ∨
            ∃ t : ℕ, t < 0 ∧ st.moduleOfCells.getD i (-1) = (t : ℤ) := by
          intro i
          rcases hmoc i with h | ⟨m, hm, _⟩
          · exact Or.inl h
          · simp at hm
        obtain ⟨hga, hgb, hgc⟩ := vector_conclusions st.moduleOfGenes 0 hbg
          (fun t ht => absurd ht (by omega))
        obtain ⟨hca, hcb, hcc⟩ := vector_conclusions st.moduleOfCells 0 hbc
          (fun t ht => absurd ht (by omega))
        refine ⟨hlg, hlc, ?_, ?_, ?_, ?_, ?_, ?_⟩
        · simpa using hga
        · simpa using hca
        · intro m hm; simp at hm
        · intro md hmd; simp at hmd
        · simpa using hgc
        · simpa using hcc
      · rw [if_neg hmodsE] at hrun
        have htuple := resultsChecked_some _ _ _ _ hrun
        simp only [Prod.mk.injEq] at htuple
        obtain ⟨hgEq, hcEq, hmEq⟩ := htuple
        have hpreG : ∀ (g j : ℕ), j < st.modules.length →
            st.moduleOfGenes.getD g (-1) = (j : ℤ) → g ∈ st.modules.getD j [] := by
          intro g j hj hv
          rcases hmog g with h | ⟨m, hm, hval, hmm⟩
          · rw [h] at hv; omega
          · rw [hval] at hv
            have hmj : m = j := by exact_mod_cast hv
            exact hmj ▸ hmm
        have hmods' : ∀ c ∈ st.modules, c ≠ [] ∧ ∀ g ∈ c, g < genesCount := by
          intro c hc
          obtain ⟨h1, _, h3⟩ := hgood.1 c hc
          exact ⟨h1, h3⟩
        have hcinv0 : CompressInv umis.length genesCount st.moduleOfCells
            st.moduleOfGenes st.modules 0
            ⟨st.moduleOfCells, st.moduleOfGenes, []⟩ := by
          refine ⟨hlc, hlg, le_refl 0, ?_, ?_, ?_, ?_, ?_⟩
          · intro nm hnm; simp at hnm
          · intro i
            rcases hmoc i with h | ⟨m, hm, hv⟩
            · exact Or.inl h
            · exact Or.inr (Or.inr ⟨rfl, m, Nat.zero_le m, hm, hv⟩)
          · intro g
            rcases hmog g with h | ⟨m, hm, hv, _⟩
            · exact Or.inl h
            · exact Or.inr (Or.inr ⟨rfl, m, Nat.zero_le m, hm, hv⟩)
          · intro t ht; simp at ht
          · intro j hj hjM g hg; exact hchar j hjM g hg
        have hfin := compressGo_inv (umis.map listSum) p.minCellsOfModules
          (p.targetMetacellSize * p.minModulesSizeFactor) umis.length genesCount
          st.moduleOfCells st.moduleOfGenes st.modules hminc hpreG hmods'
          st.modules 0 ⟨st.moduleOfCells, st.moduleOfGenes, []⟩ (List.drop_zero _)
          hcinv0
        rw [Nat.zero_add] at hfin
        have hcomp_eq : Rare.compressResults (umis.map listSum) p st.modules
            st.moduleOfCells st.moduleOfGenes
            = Rare.compressGo (umis.map listSum) p.minCellsOfModules
              (p.targetMetacellSize * p.minModulesSizeFactor) 0 st.modules
              ⟨st.moduleOfCells, st.moduleOfGenes, []⟩ := rfl
        rw [← hcomp_eq] at hfin
        obtain ⟨hflc, hflg, _, hfnames, hfc, hfg, hfwit, _⟩ := hfin
        subst hgEq hcEq hmEq
        have hbc : ∀ i : ℕ, (Rare.compressResults (umis.map listSum) p st.modules
            st.moduleOfCells st.moduleOfGenes).moduleOfCells.getD i (-1) = -1 ∨
            ∃ t : ℕ, t < (Rare.compressResults (umis.map listSum) p st.modules
              st.moduleOfCells st.moduleOfGenes).names.length ∧
              (Rare.compressResults (umis.map listSum) p st.modules
                st.moduleOfCells st.moduleOfGenes).moduleOfCells.getD i (-1)
                = (t : ℤ) := by
          intro i
          rcases hfc i with h | h | ⟨_, j, hj1, hj2, _⟩
          · exact Or.inl h
          · exact Or.inr h
          · omega
        have hbg : ∀ g : ℕ, (Rare.compressResults (umis.map listSum) p st.modules
            st.moduleOfCells st.moduleOfGenes).moduleOfGenes.getD g (-1) = -1 ∨
            ∃ t : ℕ, t < (Rare.compressResults (umis.map listSum) p st.modules
              st.moduleOfCells st.moduleOfGenes).names.length ∧
              (Rare.compressResults (umis.map listSum) p st.modules
                st.moduleOfCells st.moduleOfGenes).moduleOfGenes.getD g (-1)
                = (t : ℤ) := by
          intro g
          rcases hfg g with h | h | ⟨_, j, hj1, hj2, _⟩
          · exact Or.inl h
          · exact Or.inr h
          · omega
        obtain ⟨hca, hcb, hcc⟩ := vector_conclusions _ _ hbc
          (fun t ht => by
            obtain ⟨⟨i, hi, hvi⟩, _⟩ := hfwit t ht
            exact ⟨i, by rw [hflc]; exact hi, hvi⟩)
        obtain ⟨hga, hgb, hgc⟩ := vector_conclusions _ _ hbg
          (fun t ht => by
            obtain ⟨_, ⟨g, hg, hvg⟩⟩ := hfwit t ht
            exact ⟨g, by rw [hflg]; exact hg, hvg⟩)
        exact ⟨hflg, hflc, hga, hca,
          fun m hm => ⟨hgb m hm, hcb m hm⟩, hfnames, hgc, hcc⟩

/-- C7 witness: the invariants verified on a concrete complete run: 1 cell
with UMI row `[5, 5]`, both genes candidates, no linkage merges, module 0
loses its cell to module 1 and is discarded by compression, module 1
survives and is renumbered to 0; the run returns
`([-1, 0], [0], [[1]])`. -/
theorem c7_final_invariants_witness :
    ([(-1 : ℤ), 0].foldr max (-1) = (([[1]] : List (List ℕ)).length : ℤ) - 1) ∧
    ((0 : ℤ) ∈ [(-1 : ℤ), 0]) ∧
    (∀ x ∈ [(-1 : ℤ), 0], x = -1 ∨
      (0 ≤ x ∧ x < (([[1]] : List (List ℕ)).length : ℤ))) :=
  have h := c7_final_invariants 2 [[5, 5]] ⟨1, 1, 1, 1, 1, 1, 1/2, 1⟩ (fun _ _ => 0) []
    [-1, 0] [0] [[1]] (by simp) (by norm_num) (by norm_num)
    (by norm_num [Rare.findRareGeneModules, Rare.rareCellConfig, Rare.initialCellState,
      Rare.pickCandidates, Rare.columnOf, Rare.identifyGenes, Rare.identifyGenesGo,
      Rare.identifyCells, Rare.identifyCellsStep, Rare.strongCellsOf,
      Rare.moduleTotalsOf, Rare.strongFractionsOf, Rare.strongerTriplesOf,
      Rare.moduleGenesOf, Rare.compressResults, Rare.compressGo, Rare.compressStep,
      Rare.cellsOfModule, Rare.resultsChecked, Rare.listMaxInt?,
      setAll, setEach, listSum, listMin, List.range_succ,
      List.cons_ne_nil, List.replicate])
  ⟨h.2.2.2.2.2.2.1, (h.2.2.2.2.1 0 (by norm_num)).1, h.2.2.1⟩

/-- C8: during the linkage-tree traversal of `_identify_genes`:
(1) when both sides of a merge node are present (and nonempty) and the
mean pairwise similarity over their union — diagonal excluded — is at
least `min_module_correlation`, both sides are removed and replaced by a
single combined cluster keyed at the new merge node, every unrelated key
staying untouched; (2) when the mean similarity is below the threshold the
dictionary is unchanged, so both sides remain independent candidate
clusters; (3) every cluster not consumed by an accepted merge during the
remaining traversal appears unchanged in the final cluster set. -/
theorem c8_linkage_traversal_semantics :
    (∀ (sim : ℕ → ℕ → ℚ) (minCorr : ℚ) (st : Rare.Clusters)
        (node leftIdx rightIdx : ℕ) (lc rc : List ℕ),
        Rare.lookupCluster st leftIdx = some lc →
        Rare.lookupCluster st rightIdx = some rc →
        lc ≠ [] → rc ≠ [] →
        minCorr ≤ Rare.meanLinkSimilarity sim (Rare.sortedUnion lc rc) →
        (st.map Prod.fst).Nodup →
        Rare.lookupCluster st node = none →
        (Rare.lookupCluster (Rare.identifyGenesStep sim minCorr st node leftIdx rightIdx)
            node = some (Rare.sortedUnion lc rc) ∧
          Rare.lookupCluster (Rare.identifyGenesStep sim minCorr st node leftIdx rightIdx)
            leftIdx = none ∧
          Rare.lookupCluster (Rare.identifyGenesStep sim minCorr st node leftIdx rightIdx)
            rightIdx = none ∧
          ∀ k, k ≠ leftIdx → k ≠ rightIdx → k ≠ node →
            Rare.lookupCluster (Rare.identifyGenesStep sim minCorr st node leftIdx rightIdx)
              k = Rare.lookupCluster st k)) ∧
    (∀ (sim : ℕ → ℕ → ℚ) (minCorr : ℚ) (st : Rare.Clusters)
        (node leftIdx rightIdx : ℕ) (lc rc : List ℕ),
        Rare.lookupCluster st leftIdx = some lc →
        Rare.lookupCluster st rightIdx = some rc →
        Rare.meanLinkSimilarity sim (Rare.sortedUnion lc rc) < minCorr →
        Rare.identifyGenesStep sim minCorr st node leftIdx rightIdx = st) ∧
    (∀ (sim : ℕ → ℕ → ℚ) (minCorr : ℚ) (linkage : List (ℕ × ℕ)) (node : ℕ)
        (st : Rare.Clusters) (k : ℕ) (c : List ℕ),
        k < node →
        Rare.lookupCluster st k = some c →
        Rare.consumedIn sim minCorr node st k linkage = false →
        Rare.lookupCluster (Rare.identifyGenesGo sim minCorr node st linkage) k = some c) := by
  refine ⟨?_, ?_, ?_⟩
  · intro sim minCorr st node leftIdx rightIdx lc rc hl hr hlc hrc hmean hnodup hfresh
    have ha : Rare.mergeAccepted sim minCorr st leftIdx rightIdx = true := by
      unfold Rare.mergeAccepted
      rw [hl, hr]
      simp [hlc, hrc, not_lt.mpr hmean]
    have hln : leftIdx ≠ node := fun h => by rw [h, hfresh] at hl; exact Option.noConfusion hl
    have hrn : rightIdx ≠ node := fun h => by rw [h, hfresh] at hr; exact Option.noConfusion hr
    rw [identifyGenesStep_accepted sim minCorr st node leftIdx rightIdx lc rc hl hr ha]
    refine ⟨?_, ?_, ?_, ?_⟩
    · rw [lookupCluster_append,
        lookupCluster_eraseKey_none _ _ _ (lookupCluster_eraseKey_none _ _ _ hfresh)]
      simp [Rare.lookupCluster]
    · have h1 : Rare.lookupCluster
          (Rare.eraseKey (Rare.eraseKey st leftIdx) rightIdx) leftIdx = none := by
        by_cases hlr : leftIdx = rightIdx
        · rw [← hlr]
          exact lookupCluster_eraseKey_none _ _ _ (lookupCluster_eraseKey_self st leftIdx hnodup)
        · rw [lookupCluster_eraseKey_ne _ _ _ hlr]
          exact lookupCluster_eraseKey_self st leftIdx hnodup
      rw [lookupCluster_append, h1]
      simp only [Rare.lookupCluster, if_neg (Ne.symm hln)]
    · have h2 : Rare.lookupCluster
          (Rare.eraseKey (Rare.eraseKey st leftIdx) rightIdx) rightIdx = none :=
        lookupCluster_eraseKey_self _ rightIdx (keys_nodup_eraseKey st leftIdx hnodup)
      rw [lookupCluster_append, h2]
      simp only [Rare.lookupCluster, if_neg (Ne.symm hrn)]
    · intro k hkl hkr hkn
      rw [lookupCluster_append, lookupCluster_eraseKey_ne _ _ _ hkr,
        lookupCluster_eraseKey_ne _ _ _ hkl]
      cases hst : Rare.lookupCluster st k with
      | some c => rfl
      | none => simp only [Rare.lookupCluster, if_neg (Ne.symm hkn)]
  · intro sim minCorr st node leftIdx rightIdx lc rc hl hr hmean
    apply identifyGenesStep_not_accepted
    unfold Rare.mergeAccepted
    rw [hl, hr]
    simp [hmean]
  · intro sim minCorr linkage
    induction linkage with
    | nil => intro node st k c _ h _; exact h
    | cons lr rest ih =>
      intro node st k c hk h hcons
      rw [Rare.consumedIn, Bool.or_eq_false_iff] at hcons
      obtain ⟨hc1, hc2⟩ := hcons
      rw [Rare.identifyGenesGo]
      by_cases ha : Rare.mergeAccepted sim minCorr st lr.1 lr.2 = true
      · have hk12 : k ≠ lr.1 ∧ k ≠ lr.2 := by
          rw [Bool.and_eq_false_iff] at hc1
          rcases hc1 with h1 | h1
          · rw [ha] at h1; exact absurd h1 (by simp)
          · simpa [Bool.or_eq_false_iff, decide_eq_false_iff_not] using h1
        obtain ⟨lc2, rc2, hl2, hr2⟩ := mergeAccepted_true_lookup sim minCorr st lr.1 lr.2 ha
        rw [identifyGenesStep_accepted sim minCorr st node lr.1 lr.2 lc2 rc2 hl2 hr2 ha]
          at hc2 ⊢
        have hkn : k ≠ node := Nat.ne_of_lt hk
        have hlook : Rare.lookupCluster
            ((Rare.eraseKey (Rare.eraseKey st lr.1) lr.2)
              ++ [(node, Rare.sortedUnion lc2 rc2)]) k = some c := by
          rw [lookupCluster_append, lookupCluster_eraseKey_ne _ _ _ hk12.2,
            lookupCluster_eraseKey_ne _ _ _ hk12.1, h]
        exact ih (node + 1) _ k c (Nat.lt_succ_of_lt hk) hlook hc2
      · have ha' : Rare.mergeAccepted sim minCorr st lr.1 lr.2 = false := by
          revert ha; cases Rare.mergeAccepted sim minCorr st lr.1 lr.2 <;> simp
        rw [identifyGenesStep_not_accepted sim minCorr st node lr.1 lr.2 ha'] at hc2 ⊢
        exact ih (node + 1) st k c (Nat.lt_succ_of_lt hk) h hc2

/-- C8 witness: the traversal semantics applied at concrete inputs: an
accepted merge of `[(0, [0]), (1, [1])]` under the constant similarity 1
(threshold 1/2), a rejected merge of the same dictionary under the
constant similarity 0, and the preservation of key 0 through a rejected
one-row linkage. -/
theorem c8_linkage_traversal_semantics_witness :
    Rare.lookupCluster
        (Rare.identifyGenesStep (fun _ _ => 1) (1/2) [(0, [0]), (1, [1])] 2 0 1) 2
      = some (Rare.sortedUnion [0] [1]) ∧
    Rare.identifyGenesStep (fun _ _ => 0) (1/2) [(0, [0]), (1, [1])] 2 0 1
      = [(0, [0]), (1, [1])] ∧
    Rare.lookupCluster
        (Rare.identifyGenesGo (fun _ _ => 0) (1/2) 2 [(0, [0]), (1, [1])] [(0, 1)]) 0
      = some [0] := by
  refine ⟨(c8_linkage_traversal_semantics.1 (fun _ _ => 1) (1/2) [(0, [0]), (1, [1])]
      2 0 1 [0] [1] rfl rfl (by norm_num) (by norm_num) ?_ (by norm_num) rfl).1,
    c8_linkage_traversal_semantics.2.1 (fun _ _ => 0) (1/2) [(0, [0]), (1, [1])]
      2 0 1 [0] [1] rfl rfl ?_,
    c8_linkage_traversal_semantics.2.2 (fun _ _ => 0) (1/2) [(0, 1)] 2
      [(0, [0]), (1, [1])] 0 [0] (by norm_num) rfl ?_⟩
  · norm_num [Rare.meanLinkSimilarity, Rare.sortedUnion, Rare.insertSorted, listSum,
      List.replicate]
  · norm_num [Rare.meanLinkSimilarity, Rare.sortedUnion, Rare.insertSorted, listSum,
      List.replicate]
  · norm_num [Rare.consumedIn, Rare.mergeAccepted, Rare.lookupCluster,
      Rare.meanLinkSimilarity, Rare.sortedUnion, Rare.insertSorted, listSum,
      List.replicate]

/-- C9 counterexample: on the short-circuit path the `_results` asserts
(rare.py:460-463) still run; with zero genes `np.max` over the empty
per-gene module vector raises `ValueError`, so the run aborts (`none`)
instead of returning the empty result, refuting the unconditional claim. -/
theorem c9_zero_genes_short_circuit_raises :
    (Rare.pickCandidates 0 [[]] ⟨1, 1, 5, 1, 1, 1, 1/2, 1⟩).length < 5 ∧
    Rare.findRareGeneModules 0 [[]] ⟨1, 1, 5, 1, 1, 1, 1/2, 1⟩
      (fun _ _ => 0) [] = none := by
  constructor
  · norm_num [Rare.pickCandidates, Rare.columnOf, listSum]
  · norm_num [Rare.findRareGeneModules, Rare.resultsChecked, Rare.listMaxInt?,
      Rare.pickCandidates, Rare.columnOf, listSum, List.replicate]

/-- C9 (amended): with at least one gene and at least one cell, whenever the
count of genes surviving candidate selection is strictly below
`min_genes_of_modules`, `find_rare_gene_modules` returns immediately with
the well-defined empty result: no modules, every gene and every cell marked
`-1`, and no error (`some`, not `none`); the nonemptiness hypotheses are
needed because the `_results` asserts run `np.max` over both label vectors
and raise `ValueError` on an empty axis. -/
theorem c9_insufficient_candidates_empty_result (genesCount : ℕ) (umis : List (List ℚ))
    (p : Rare.Params) (sim : ℕ → ℕ → ℚ) (linkage : List (ℕ × ℕ))
    (hg : 0 < genesCount) (hc : 0 < umis.length)
    (h : (Rare.pickCandidates genesCount umis p).length < p.minGenesOfModules) :
    Rare.findRareGeneModules genesCount umis p sim linkage
      = some (List.replicate genesCount (-1), List.replicate umis.length (-1), []) := by
  unfold Rare.findRareGeneModules
  rw [if_pos h]
  exact resultsChecked_replicate genesCount umis.length hg hc

/-- C9 witness: 4 genes of which 3 survive candidate selection, against
`min_genes_of_modules = 5`, on one cell. -/
theorem c9_insufficient_candidates_empty_result_witness :
    Rare.findRareGeneModules 4 [[1, 1, 1, 0]] ⟨1, 1, 5, 1, 1, 1, 1/2, 1⟩
      (fun _ _ => 0) [] = some (List.replicate 4 (-1), List.replicate 1 (-1), []) :=
  c9_insufficient_candidates_empty_result 4 [[1, 1, 1, 0]] ⟨1, 1, 5, 1, 1, 1, 1/2, 1⟩
    (fun _ _ => 0) [] (by norm_num) (by norm_num)
    (by norm_num [Rare.pickCandidates, Rare.columnOf, listSum, List.range_succ])

/-- C10: `find_rare_gene_modules` validates `min_cells_of_modules > 0` and
`min_genes_of_modules > 0` at entry but places no condition on
`min_cell_module_total`; with `min_cell_module_total = 0` a cell whose UMI
total inside a candidate module is 0 becomes a "strong" cell with module
fraction 0, so `assert min_strong_fraction > 0` (line 370) fails and the
whole computation aborts (`none`) instead of skipping the module. -/
theorem c10_min_cell_module_total_not_validated :
    (∀ t : ℚ, Rare.entryAsserts ⟨1, 0, 1, 1, 1, 1, 1/2, t⟩) ∧
    Rare.findRareGeneModules 2 [[0, 10]] ⟨1, 0, 1, 1, 1, 1, 1/2, 0⟩
      (fun _ _ => 0) [] = none := by
  constructor
  · intro t; exact ⟨Nat.one_pos, Nat.one_pos⟩
  · norm_num [Rare.findRareGeneModules, Rare.rareCellConfig, Rare.initialCellState,
      Rare.pickCandidates, Rare.columnOf, Rare.identifyGenes, Rare.identifyGenesGo,
      Rare.identifyCells, Rare.identifyCellsStep, Rare.strongCellsOf,
      Rare.moduleTotalsOf, Rare.strongFractionsOf, listSum, listMin, List.range_succ]

/-- C5 witness: the amended theorem applied at a concrete degenerate
input (query row `[2]`, atlas row `[3]`, significance floor `20`). -/
theorem c5_no_significant_genes_aborts_witness :
    Project.projectSingleMetacell (fun q => q) ⟨1/1000, 20, 3, 2, 3, 1, 3⟩
      [[3]] [2] (Project.allAtlasCandidates 1) [1] = none :=
  c5_no_significant_genes_aborts (fun q => q) ⟨1/1000, 20, 3, 2, 3, 1, 3⟩
    [[3]] [2] (Project.allAtlasCandidates 1) [1] (by norm_num [Project.significantGenesOf, Project.totalGeneUmisOf, Project.projectedUmisOf, Project.projectedFractionsOf, Project.projectedTotalUmisOf, Project.weightedSumRows, Project.usedCandidates, Project.pruneCandidateWeights, Project.allAtlasCandidates, Project.fractionRow, listSum, List.range_succ])

end Meta2
